import Mathlib

/-!
Verification development for the gochain segmented key-value table
(`ethdb/table.go`, `ethdb/segment_set.go`) and the journaled state
database (`core/state/statedb.go`).

Shallow embedding conventions:
* byte slices become `List Nat`; segment names become `Nat`, whose total
  order stands in for the source's lexicographic string order (only
  equality and the order are ever consulted);
* Go maps become association lists; `delete` removes every binding of the
  key and insertion shadows (filters) previous bindings, which matches the
  observable behaviour of Go maps (unique keys);
* fallible Go functions return `Except Err`;
* external collaborators whose source is not in the excerpt
  (`SegmentOpener`, `SegmentCompactor`, `os.Stat`, LDB segments' on-disk
  behaviour) are an explicit environment record `Env`, with behaviour
  modelled from the spec where noted.
-/

deriving instance DecidableEq for Except

namespace Ethdb

/-- Byte strings (Go `[]byte`). `[]` plays the role of both `nil` and the
empty slice; `bytes.Equal` identifies the two, as does `List` equality. -/
abbrev Bytes := List Nat

/-- Segment names.  Go uses strings ordered lexicographically; the code
only ever consults equality and that total order on names, so names are
embedded as naturals with their total order standing in for the
lexicographic one. -/
abbrev Name := Nat

/-- Error values surfaced by the table layer.  `notFound` is
`common.ErrNotFound`, `immutableSegment` is `ethdb.ErrImmutableSegment`,
`invalidSegmentType` / `segmentTypeUnknown` are the open-time probes, and
`io n` stands for an arbitrary underlying IO failure. `notExist` models an
`os.IsNotExist` stat failure. -/
inductive Err where
  | notFound
  | immutableSegment
  | invalidSegmentType
  | segmentTypeUnknown
  | notExist
  | io (code : Nat)
deriving DecidableEq, Repr

/-- Association list lookup (Go map read). -/
def lookupA {β : Type} (l : List (Name × β)) (k : Name) : Option β :=
  match l.find? (fun p => p.1 = k) with
  | some p => some p.2
  | none => none

/-- Association list insert (Go map write): shadows all previous bindings. -/
def insertA {β : Type} (k : Name) (v : β) (l : List (Name × β)) : List (Name × β) :=
  (k, v) :: l.filter (fun p => p.1 ≠ k)

/-- Association list delete (Go `delete`). -/
def eraseA {β : Type} (k : Name) (l : List (Name × β)) : List (Name × β) :=
  l.filter (fun p => p.1 ≠ k)

/-- Lookup in a byte-keyed association list (segment contents). -/
def lookupB {β : Type} (l : List (Bytes × β)) (k : Bytes) : Option β :=
  match l.find? (fun p => p.1 = k) with
  | some p => some p.2
  | none => none

/-- Insert in a byte-keyed association list. -/
def insertB {β : Type} (k : Bytes) (v : β) (l : List (Bytes × β)) : List (Bytes × β) :=
  (k, v) :: l.filter (fun p => p.1 ≠ k)

/-- Delete in a byte-keyed association list. -/
def eraseB {β : Type} (k : Bytes) (l : List (Bytes × β)) : List (Bytes × β) :=
  l.filter (fun p => p.1 ≠ k)

/-- A mutable (LDB) segment: its name, key/value contents and the
modification time of its backing directory (`os.Stat ... ModTime`). -/
structure LDBSegment where
  name : Name
  data : List (Bytes × Bytes)
  mtime : Nat
deriving DecidableEq, Repr

/-- An immutable (file) segment as held in the `SegmentSet` universe:
name, contents, whether the concrete type implements `Open() error`
(run-time capability probe in `SegmentSet.Acquire`) and, when it does,
the outcome that `Open` would produce. -/
structure FileSegment where
  name : Name
  data : List (Bytes × Bytes)
  hasOpen : Bool
  openErr : Option Err
deriving DecidableEq, Repr

/-- `SegmentSet` (segment_set.go): the universe of known immutable
segments, the LRU cache of opened segments (most recently used first) and
the weighted semaphore, modelled by the number of outstanding permits. -/
structure SegmentSet where
  segments : List (Name × FileSegment)
  cache : List (Name × FileSegment)
  maxOpen : Nat
  permits : Nat
deriving DecidableEq, Repr

/-- `NewSegmentSet`: clamps the capacity to at least 1. -/
def SegmentSet.new (maxOpenCount : Nat) : SegmentSet :=
  { segments := [], cache := [], maxOpen := max maxOpenCount 1, permits := 0 }

/-- `SegmentSet.Add`: insert into the universe, keyed by the segment's
own name; does not open or cache. -/
def SegmentSet.add (ss : SegmentSet) (s : FileSegment) : SegmentSet :=
  { ss with segments := insertA s.name s ss.segments }

/-- `SegmentSet.Contains`. -/
def SegmentSet.containsName (ss : SegmentSet) (name : Name) : Bool :=
  (lookupA ss.segments name).isSome

/-- `lru.Cache.Get`: on a hit the entry moves to the front (most recent). -/
def cacheGetTouch (cache : List (Name × FileSegment)) (name : Name) :
    Option (FileSegment × List (Name × FileSegment)) :=
  match lookupA cache name with
  | some s => some (s, (name, s) :: eraseA name cache)
  | none => none

/-- `lru.Cache.Add` with eviction: new entry in front, oldest dropped when
over capacity (the eviction callback only closes/purges file handles and
does not change either map). -/
def cacheAdd (maxOpen : Nat) (name : Name) (s : FileSegment)
    (cache : List (Name × FileSegment)) : List (Name × FileSegment) :=
  ((name, s) :: eraseA name cache).take maxOpen

/-- `SegmentSet.Acquire` (segment_set.go lines 95-124): take a permit;
serve from the cache if opened; return `none` (no error) when the name is
outside the universe, releasing the permit; `Open` the segment when it
supports opening, releasing the permit and surfacing the error on failure;
otherwise cache it and return it holding the permit. -/
def SegmentSet.acquire (ss : SegmentSet) (name : Name) :
    SegmentSet × Except Err (Option FileSegment) :=
  let ss1 : SegmentSet := { ss with permits := ss.permits + 1 }
  match cacheGetTouch ss1.cache name with
  | some (s, cache1) => ({ ss1 with cache := cache1 }, .ok (some s))
  | none =>
    match lookupA ss1.segments name with
    | none => ({ ss1 with permits := ss1.permits - 1 }, .ok none)
    | some s =>
      if s.hasOpen then
        match s.openErr with
        | some e => ({ ss1 with permits := ss1.permits - 1 }, .error e)
        | none => ({ ss1 with cache := cacheAdd ss1.maxOpen name s ss1.cache }, .ok (some s))
      else
        ({ ss1 with cache := cacheAdd ss1.maxOpen name s ss1.cache }, .ok (some s))

/-- `SegmentSet.Release`: return one permit. -/
def SegmentSet.release (ss : SegmentSet) : SegmentSet :=
  { ss with permits := ss.permits - 1 }

/-- `SegmentSet.Remove(ctx, name)`: always removed from the universe; the
cache entry is removed unless the context was cancelled (then the stale
entry survives until the next purge). -/
def SegmentSet.remove (ss : SegmentSet) (cancelled : Bool) (name : Name) : SegmentSet :=
  let ss1 : SegmentSet := { ss with segments := eraseA name ss.segments }
  if cancelled then ss1 else { ss1 with cache := eraseA name ss1.cache }

/-- `SegmentSet.Close`: clears the universe and purges the cache. -/
def SegmentSet.close (ss : SegmentSet) : SegmentSet :=
  { ss with segments := [], cache := [] }

/-- The result of the `SegmentFileType` probe. -/
inductive SegFileType where
  | ldb1
  | fileSeg
deriving DecidableEq, Repr

/-- The environment of a `Table`: its partitioner and every external
collaborator whose source is outside the excerpt (`SegmentOpener`,
`SegmentCompactor`, the file-type probe, `os.Stat`, the creation of fresh
LDB directories).  `now` is the current clock reading and `mtimeOf` the
modification time of a pre-existing segment directory. -/
structure Env where
  partition : Bytes → Name
  listNames : List Name
  fileType : Name → Except Err SegFileType
  openSegment : Name → Except Err FileSegment
  openLDB : Name → Except Err (List (Bytes × Bytes))
  openNewLDB : Name → Except Err Unit
  compactSegment : LDBSegment → Except Err FileSegment
  uncompactSegment : Option FileSegment → Except Err LDBSegment
  statErr : Name → Option Err
  mtimeOf : Name → Nat
  now : Nat
  ctxCancelled : Bool

/-- `os.Stat` of a mutable segment's directory: an injected error, or the
stored modification time. -/
def Env.stat (env : Env) (s : LDBSegment) : Except Err Nat :=
  match env.statErr s.name with
  | some e => .error e
  | none => .ok s.mtime

/-- Table state (table.go): the active segment name, the writable tier and
the immutable tier, together with the policy knobs. -/
structure Table where
  active : Name
  ldbSegments : List (Name × LDBSegment)
  segments : SegmentSet
  minMutableSegmentCount : Nat
  minCompactionAge : Nat
  maxOpenSegmentCount : Nat
deriving DecidableEq, Repr

/-- A segment handed out by `Table.AcquireSegment`: either a writable LDB
segment or an immutable file segment. -/
inductive TSeg where
  | ldb (s : LDBSegment)
  | file (s : FileSegment)
deriving DecidableEq, Repr

/-- `Table.AcquireSegment`: the writable tier is preferred (no semaphore
cost); otherwise the `SegmentSet` acquire path runs. -/
def Table.acquireSegment (t : Table) (name : Name) :
    Table × Except Err (Option TSeg) :=
  match lookupA t.ldbSegments name with
  | some s => (t, .ok (some (.ldb s)))
  | none =>
    match t.segments.acquire name with
    | (ss, .ok (some s)) => ({ t with segments := ss }, .ok (some (.file s)))
    | (ss, .ok none) => ({ t with segments := ss }, .ok none)
    | (ss, .error e) => ({ t with segments := ss }, .error e)

/-- `Table.ReleaseSegment`: file segments return their semaphore permit,
LDB segments took none. -/
def Table.releaseSegment (t : Table) (s : TSeg) : Table :=
  match s with
  | .ldb _ => t
  | .file _ => { t with segments := t.segments.release }

/-- Modelled from the spec: `LDBSegment.Get` (ldb_segment.go is not in the
excerpt) returns the stored bytes, or the `NotFound` sentinel of §7 when
the key is absent. -/
def ldbGet (s : LDBSegment) (key : Bytes) : Except Err (Option Bytes) :=
  match lookupB s.data key with
  | some v => .ok (some v)
  | none => .error .notFound

/-- Modelled from the spec: `FileSegment.Get` (file_segment.go is not in
the excerpt) behaves as `LDBSegment.Get` on the frozen contents. -/
def fileGet (s : FileSegment) (key : Bytes) : Except Err (Option Bytes) :=
  match lookupB s.data key with
  | some v => .ok (some v)
  | none => .error .notFound

/-- `Get` on either kind of acquired segment. -/
def TSeg.get (s : TSeg) (key : Bytes) : Except Err (Option Bytes) :=
  match s with
  | .ldb s => ldbGet s key
  | .file s => fileGet s key

/-- `Has` on either kind of acquired segment (membership of the contents). -/
def TSeg.hasKey (s : TSeg) (key : Bytes) : Except Err Bool :=
  match s with
  | .ldb s => .ok (lookupB s.data key).isSome
  | .file s => .ok (lookupB s.data key).isSome

/-- `Table.Has` (table.go lines 260-270): a missing segment is the
`common.ErrNotFound` sentinel. -/
def Table.hasKey (env : Env) (t : Table) (key : Bytes) : Table × Except Err Bool :=
  let name := env.partition key
  match t.acquireSegment name with
  | (t1, .error e) => (t1, .error e)
  | (t1, .ok none) => (t1, .error .notFound)
  | (t1, .ok (some s)) => ((t1.releaseSegment s), s.hasKey key)

/-- `Table.Get` (table.go lines 273-283): a missing segment yields
`(nil, nil)`. -/
def Table.get (env : Env) (t : Table) (key : Bytes) :
    Table × Except Err (Option Bytes) :=
  let name := env.partition key
  match t.acquireSegment name with
  | (t1, .error e) => (t1, .error e)
  | (t1, .ok none) => (t1, .ok none)
  | (t1, .ok (some s)) => ((t1.releaseSegment s), s.get key)

/-- Ascending name order on writable segments. -/
def nameLe (a b : LDBSegment) : Prop := a.name ≤ b.name

instance : DecidableRel nameLe := fun a b => Nat.decLe a.name b.name

instance : IsTrans LDBSegment nameLe := ⟨fun _ _ _ => Nat.le_trans⟩

instance : IsTotal LDBSegment nameLe := ⟨fun a b => Nat.le_total a.name b.name⟩

/-- The sorted slice of writable segments (`Table.ldbSegmentSlice`),
ascending by name. -/
def Table.ldbSegmentSlice (t : Table) : List LDBSegment :=
  List.insertionSort nameLe (t.ldbSegments.map Prod.snd)

/-- The body of the compaction loop (table.go lines 337-355): skip young
segments, convert the rest with the compactor, moving each converted
segment from the writable tier into the universe; the first error aborts. -/
def compactLoop (env : Env) : List LDBSegment → Table → Table × Except Err Unit
  | [], t => (t, .ok ())
  | s :: rest, t =>
    match env.stat s with
    | .error e => (t, .error e)
    | .ok m =>
      if env.now - m < t.minCompactionAge then
        compactLoop env rest t
      else
        match env.compactSegment s with
        | .error e => (t, .error e)
        | .ok ns =>
          compactLoop env rest
            { t with segments := t.segments.add ns,
                     ldbSegments := eraseA s.name t.ldbSegments }

/-- `Table.compact` (table.go lines 330-357): nothing happens while fewer
than `MinMutableSegmentCount` writable segments exist; otherwise all but
the newest `MinMutableSegmentCount` are fed to the loop. -/
def Table.compact (env : Env) (t : Table) : Table × Except Err Unit :=
  let slice := t.ldbSegmentSlice
  if slice.length < t.minMutableSegmentCount then (t, .ok ())
  else compactLoop env (slice.take (slice.length - t.minMutableSegmentCount)) t

/-- `Table.uncompact` (table.go lines 360-379): acquire the immutable
segment, convert it back with the compactor, install the result into the
writable tier under the requested name, drop the name from the universe
and release the deferred permit. -/
def Table.uncompact (env : Env) (t : Table) (name : Name) :
    Table × Except Err LDBSegment :=
  match t.segments.acquire name with
  | (ss, .error e) => ({ t with segments := ss }, .error e)
  | (ss, .ok s?) =>
    let t1 : Table := { t with segments := ss }
    match env.uncompactSegment s? with
    | .error e => ({ t1 with segments := t1.segments.release }, .error e)
    | .ok ldbSegment =>
      let t2 : Table :=
        { t1 with ldbSegments := insertA name ldbSegment t1.ldbSegments }
      let t3 : Table :=
        { t2 with segments := t2.segments.remove env.ctxCancelled name }
      ({ t3 with segments := t3.segments.release }, .ok ldbSegment)

/-- `Table.CreateSegmentIfNotExists` (table.go lines 213-257). -/
def Table.createSegmentIfNotExists (env : Env) (t : Table) (name : Name) :
    Table × Except Err LDBSegment :=
  match lookupA t.ldbSegments name with
  | some s => (t, .ok s)
  | none =>
    if t.segments.containsName name then
      t.uncompact env name
    else if name < t.active then
      (t, .error .immutableSegment)
    else
      match env.openNewLDB name with
      | .error e => (t, .error e)
      | .ok () =>
        let seg : LDBSegment := { name := name, data := [], mtime := env.now }
        let t1 : Table :=
          { t with ldbSegments := insertA name seg t.ldbSegments, active := name }
        match t1.compact env with
        | (t2, .error e) => (t2, .error e)
        | (t2, .ok ()) => (t2, .ok seg)

/-- `s.Put(key, value)` on the segment returned by
`CreateSegmentIfNotExists`.  Go writes through a shared pointer: the write
is observable through the table only while `ldbSegments[name]` still holds
the very segment that was returned (compaction inside the create may have
orphaned it). -/
def Table.segPut (t : Table) (name : Name) (seg : LDBSegment) (key value : Bytes) : Table :=
  match lookupA t.ldbSegments name with
  | some cur =>
    if cur = seg then
      { t with ldbSegments :=
          insertA name { seg with data := insertB key value seg.data } t.ldbSegments }
    else t
  | none => t

/-- `Table.Put` (table.go lines 286-299): read through the current value;
a read error other than `NotFound` aborts; a bit-equal value (Go
`bytes.Equal`, which identifies `nil` and the empty slice) short-circuits;
otherwise the target mutable segment is created/uncompacted and the write
is forwarded. -/
def Table.put (env : Env) (t : Table) (key value : Bytes) : Table × Except Err Unit :=
  let name := env.partition key
  let res := t.get env key
  let write : Table → Table × Except Err Unit := fun t1 =>
    match t1.createSegmentIfNotExists env name with
    | (t2, .error e) => (t2, .error e)
    | (t2, .ok seg) => (t2.segPut name seg key value, .ok ())
  match res with
  | (t1, .error e) =>
    if e = .notFound then
      if value = [] then (t1, .ok ()) else write t1
    else (t1, .error e)
  | (t1, .ok none) =>
    if value = [] then (t1, .ok ()) else write t1
  | (t1, .ok (some v)) =>
    if v = value then (t1, .ok ()) else write t1

/-- `if name > t.active { t.active = name }` (table.go lines 106-108). -/
def bumpActive (t : Table) (name : Name) : Table :=
  if t.active < name then { t with active := name } else t

/-- `Table.Close` effect on table state: the `SegmentSet` is closed (the
LDB handles are closed too, but the maps are not cleared). -/
def Table.closeTable (t : Table) : Table :=
  { t with segments := t.segments.close }

/-- The `default` branch of the per-name loop of `Table.Open`: open as a
generic segment; `ErrSegmentTypeUnknown` skips the file, other errors
abort, success registers the segment in the universe and bumps `active`. -/
def openDefaultBranch (env : Env) (name : Name)
    (cont : Table → Table × Except Err Unit) (t : Table) : Table × Except Err Unit :=
  match env.openSegment name with
  | .error e =>
    if e = .segmentTypeUnknown then cont t
    else (t, .error e)
  | .ok s => cont (bumpActive { t with segments := t.segments.add s } name)

/-- The per-name loop of `Table.Open` (table.go lines 70-109). -/
def openLoop (env : Env) : List Name → Table → Table × Except Err Unit
  | [], t => (t, .ok ())
  | name :: rest, t =>
    match env.fileType name with
    | .error e =>
      if e = .invalidSegmentType then openLoop env rest t
      else if e = .notExist then openDefaultBranch env name (openLoop env rest) t
      else (t, .error e)
    | .ok .ldb1 =>
      match env.openLDB name with
      | .error e => (t.closeTable, .error e)
      | .ok data =>
        let seg : LDBSegment := { name := name, data := data, mtime := env.mtimeOf name }
        openLoop env rest
          (bumpActive { t with ldbSegments := insertA name seg t.ldbSegments } name)
    | .ok .fileSeg => openDefaultBranch env name (openLoop env rest) t

/-- `Table.Open` (table.go lines 56-111): both tiers are re-initialised
(`active` is kept) and every name listed in the directory is processed.
`os.MkdirAll` / `ListSegmentNames` failures abort before touching the
fresh tiers and are not modelled. -/
def Table.openTable (env : Env) (t : Table) : Table × Except Err Unit :=
  let t0 : Table :=
    { t with ldbSegments := [], segments := SegmentSet.new t.maxOpenSegmentCount }
  openLoop env env.listNames t0

/-- `Table.Delete` (table.go lines 302-317): a missing segment is a no-op,
an immutable segment is `ErrImmutableSegment`, a mutable segment forwards. -/
def Table.del (env : Env) (t : Table) (key : Bytes) : Table × Except Err Unit :=
  let name := env.partition key
  match t.acquireSegment name with
  | (t1, .error e) => (t1, .error e)
  | (t1, .ok none) => (t1, .ok ())
  | (t1, .ok (some s)) =>
    let t2 := t1.releaseSegment s
    match s with
    | .ldb seg =>
      ({ t2 with ldbSegments :=
          insertA name { seg with data := eraseB key seg.data } t2.ldbSegments }, .ok ())
    | .file _ => (t2, .error .immutableSegment)

/-- One buffered entry of a per-segment sub-batch (`ldbSegmentBatch`). -/
inductive BatchEntry where
  | putE (k v : Bytes)
  | delE (k : Bytes)
deriving DecidableEq, Repr

/-- `tableBatch` state: per-segment sub-batches keyed by segment name,
each remembering the LDB segment it was created against (Go keeps a
pointer), plus the accumulated value size. -/
structure TableBatch where
  batches : List (Name × (LDBSegment × List BatchEntry))
  size : Nat
deriving DecidableEq, Repr

/-- `tableBatch.Put` (table.go lines 387-412). -/
def batchPut (env : Env) (t : Table) (b : TableBatch) (key value : Bytes) :
    Table × TableBatch :=
  let res := t.get env key
  let write : Table → Table × TableBatch := fun t1 =>
    let name := env.partition key
    match t1.createSegmentIfNotExists env name with
    | (t2, .error _) => (t2, b)
    | (t2, .ok seg) =>
      match lookupA b.batches name with
      | some (s0, entries) =>
        (t2, { batches := insertA name (s0, entries ++ [.putE key value]) b.batches,
               size := b.size + value.length })
      | none =>
        (t2, { batches := insertA name (seg, [.putE key value]) b.batches,
               size := b.size + value.length })
  match res with
  | (t1, .error e) =>
    if e = .notFound then
      if value = [] then (t1, b) else write t1
    else (t1, b)
  | (t1, .ok none) =>
    if value = [] then (t1, b) else write t1
  | (t1, .ok (some v)) =>
    if v = value then (t1, b) else write t1

/-- `tableBatch.Delete` (table.go lines 414-438): a key that reads as
`NotFound` is skipped, other read errors abort. -/
def batchDel (env : Env) (t : Table) (b : TableBatch) (key : Bytes) :
    Table × TableBatch :=
  match t.get env key with
  | (t1, .error _) => (t1, b)
  | (t1, .ok _) =>
    let name := env.partition key
    match t1.createSegmentIfNotExists env name with
    | (t2, .error _) => (t2, b)
    | (t2, .ok seg) =>
      match lookupA b.batches name with
      | some (s0, entries) =>
        (t2, { b with batches := insertA name (s0, entries ++ [.delE key]) b.batches })
      | none =>
        (t2, { b with batches := insertA name (seg, [.delE key]) b.batches })

/-- Replay a sub-batch on segment contents (`ldbSegmentBatch.Write`). -/
def applyEntries (entries : List BatchEntry) (data : List (Bytes × Bytes)) :
    List (Bytes × Bytes) :=
  entries.foldl
    (fun d e => match e with
      | .putE k v => insertB k v d
      | .delE k => eraseB k d) data

/-- `tableBatch.Write` (table.go lines 440-447): each sub-batch commits
into the LDB segment it holds a pointer to; the write is observable
through the table only while the map still routes that name to the very
same segment. -/
def batchWrite (t : Table) (b : TableBatch) : Table :=
  b.batches.foldl
    (fun t1 entry =>
      let (name, seg, entries) := (entry.1, entry.2.1, entry.2.2)
      match lookupA t1.ldbSegments name with
      | some cur =>
        if cur = seg then
          { t1 with ldbSegments :=
              insertA name { seg with data := applyEntries entries seg.data } t1.ldbSegments }
        else t1
      | none => t1) t

/-- One buffered batch operation, as issued by a client. -/
inductive BOp where
  | bput (k v : Bytes)
  | bdel (k : Bytes)
deriving DecidableEq, Repr

/-- Build up a `tableBatch` from client operations and `Write` it. -/
def runBatch (env : Env) (t : Table) (ops : List BOp) : Table :=
  let (t1, b) := ops.foldl
    (fun (st : Table × TableBatch) op =>
      match op with
      | .bput k v => batchPut env st.1 st.2 k v
      | .bdel k => batchDel env st.1 st.2 k)
    (t, { batches := [], size := 0 })
  batchWrite t1 b

/-- One table-level operation of the claims' operation sequences. -/
inductive TOp where
  | openT
  | put (k v : Bytes)
  | del (k : Bytes)
  | compactT
  | createSeg (name : Name)
  | batch (ops : List BOp)

/-- Run one operation, keeping the table state an operation leaves behind
whether or not it also returned an error. -/
def stepT (env : Env) (t : Table) : TOp → Table
  | .openT => (t.openTable env).1
  | .put k v => (t.put env k v).1
  | .del k => (t.del env k).1
  | .compactT => (t.compact env).1
  | .createSeg n => (t.createSegmentIfNotExists env n).1
  | .batch ops => runBatch env t ops

/-- Run a sequence of table operations. -/
def runT (env : Env) : List TOp → Table → Table
  | [], t => t
  | op :: rest, t => runT env rest (stepT env t op)

/-- A concrete environment used for witnesses and counterexamples: every
key partitions to segment name `1`, compaction and uncompaction preserve
contents. -/
def envW : Env := {
  partition := fun _ => 1
  listNames := []
  fileType := fun _ => .error .segmentTypeUnknown
  openSegment := fun _ => .error .segmentTypeUnknown
  openLDB := fun _ => .error (.io 0)
  openNewLDB := fun _ => .ok ()
  compactSegment := fun s => .ok { name := s.name, data := s.data, hasOpen := false, openErr := none }
  uncompactSegment := fun s? =>
    match s? with
    | some s => .ok { name := s.name, data := s.data, mtime := 0 }
    | none => .error (.io 1)
  statErr := fun _ => none
  mtimeOf := fun _ => 0
  now := 0
  ctxCancelled := false }

/-- A fresh empty table with degenerate compaction knobs
(`MinMutableSegmentCount = 0`, `MinCompactionAge = 0`). -/
def tableDegenerate : Table := {
  active := 0
  ldbSegments := []
  segments := SegmentSet.new 2
  minMutableSegmentCount := 0
  minCompactionAge := 0
  maxOpenSegmentCount := 2 }

/-- A fresh empty table with the sane default-style knobs
(`MinMutableSegmentCount = 1`, positive `MinCompactionAge`). -/
def tableSane : Table := {
  active := 0
  ldbSegments := []
  segments := SegmentSet.new 2
  minMutableSegmentCount := 1
  minCompactionAge := 5
  maxOpenSegmentCount := 2 }

theorem lookupA_cons_self {β : Type} (k : Name) (v : β) (l : List (Name × β)) :
    lookupA ((k, v) :: l) k = some v := by
  simp [lookupA, List.find?]

theorem lookupA_cons_ne {β : Type} (k k' : Name) (v : β) (l : List (Name × β))
    (h : k' ≠ k) : lookupA ((k', v) :: l) k = lookupA l k := by
  simp [lookupA, List.find?, h]

theorem lookupA_insert_self {β : Type} (k : Name) (v : β) (l : List (Name × β)) :
    lookupA (insertA k v l) k = some v := by
  simp [insertA, lookupA_cons_self]

theorem lookupA_filter_ne {β : Type} (k : Name) (l : List (Name × β))
    (p : Name × β → Bool) (hp : ∀ x, x.1 = k → p x = true) :
    lookupA (l.filter p) k = lookupA l k := by
  induction l with
  | nil => rfl
  | cons x xs ih =>
    by_cases hx : x.1 = k
    · have := hp x hx
      simp only [List.filter, this]
      rcases x with ⟨k', v⟩
      subst hx
      simp [lookupA_cons_self]
    · by_cases hpx : p x = true
      · simp only [List.filter, hpx]
        rcases x with ⟨k', v⟩
        rw [lookupA_cons_ne _ _ _ _ hx, lookupA_cons_ne _ _ _ _ hx, ih]
      · simp only [List.filter, Bool.not_eq_true] at hpx ⊢
        rw [hpx]
        rcases x with ⟨k', v⟩
        rw [lookupA_cons_ne _ _ _ _ hx, ih]

theorem lookupA_insert_ne {β : Type} (k k' : Name) (v : β) (l : List (Name × β))
    (h : k' ≠ k) : lookupA (insertA k' v l) k = lookupA l k := by
  unfold insertA
  rw [lookupA_cons_ne _ _ _ _ h]
  apply lookupA_filter_ne
  intro x hx
  have hne : x.1 ≠ k' := by rw [hx]; exact fun he => h he.symm
  simpa using hne

theorem lookupA_erase_self {β : Type} (k : Name) (l : List (Name × β)) :
    lookupA (eraseA k l) k = none := by
  induction l with
  | nil => rfl
  | cons x xs ih =>
    rcases x with ⟨k', v⟩
    simp only [eraseA] at ih ⊢
    rw [List.filter_cons]
    by_cases hx : k' = k
    · subst hx
      simpa using ih
    · have hd : (decide ¬(k' = k)) = true := by simp [hx]
      simp only [ne_eq, hd, if_true]
      rw [lookupA_cons_ne _ _ _ _ hx]
      exact ih

theorem lookupA_erase_ne {β : Type} (k k' : Name) (l : List (Name × β))
    (h : k' ≠ k) : lookupA (eraseA k' l) k = lookupA l k := by
  apply lookupA_filter_ne
  intro x hx
  simp [hx]
  exact fun he => h (he ▸ rfl)

theorem lookupA_take_cons {β : Type} (n : Nat) (hn : 0 < n) (k : Name) (v : β)
    (l : List (Name × β)) : lookupA (((k, v) :: l).take n) k = some v := by
  cases n with
  | zero => omega
  | succ m =>
    rw [List.take_succ_cons]
    exact lookupA_cons_self _ _ _

theorem lookupB_cons_self {β : Type} (k : Bytes) (v : β) (l : List (Bytes × β)) :
    lookupB ((k, v) :: l) k = some v := by
  simp [lookupB, List.find?]

theorem lookupB_insert_self {β : Type} (k : Bytes) (v : β) (l : List (Bytes × β)) :
    lookupB (insertB k v l) k = some v := by
  simp [insertB, lookupB_cons_self]

/-- `SegmentSet.Acquire` never changes the universe. -/
theorem acquire_keeps_universe (ss : SegmentSet) (name : Name) :
    ((ss.acquire name).1).segments = ss.segments := by
  unfold SegmentSet.acquire
  rcases h2 : cacheGetTouch ss.cache name with _ | ⟨s, cache1⟩
  · simp only [h2]
    rcases h3 : lookupA ss.segments name with _ | s
    · simp [h3]
    · cases hs : s.hasOpen <;> rcases ho : s.openErr with _ | e <;> simp [h3, hs, ho]
  · simp [h2]

/-- `Table.AcquireSegment` never changes the writable tier or the
universe. -/
theorem acquireSegment_keeps_tiers (t : Table) (name : Name) :
    (t.acquireSegment name).1.ldbSegments = t.ldbSegments ∧
    (t.acquireSegment name).1.segments.segments = t.segments.segments := by
  unfold Table.acquireSegment
  rcases h1 : lookupA t.ldbSegments name with _ | s
  · simp only [h1]
    have hu := acquire_keeps_universe t.segments name
    split <;> rename_i heq <;> rw [heq] at hu <;> exact ⟨rfl, hu⟩
  · simp [h1]

/-- `Table.Get` never changes the writable tier or the universe (only the
open-segment cache and the semaphore move). -/
theorem get_preserves_tiers (env : Env) (t : Table) (key : Bytes) :
    (t.get env key).1.ldbSegments = t.ldbSegments ∧
    (t.get env key).1.segments.segments = t.segments.segments := by
  unfold Table.get
  have ha := acquireSegment_keeps_tiers t (env.partition key)
  rcases h1 : t.acquireSegment (env.partition key) with ⟨t1, r⟩
  rw [h1] at ha
  simp only [h1]
  rcases r with e | v
  · exact ha
  · rcases v with _ | s
    · exact ha
    · rcases s with s | s
      · exact ha
      · simpa [Table.releaseSegment, SegmentSet.release] using ha

/-- A file segment used in witnesses. -/
def fsegW : FileSegment := { name := 1, data := [([1], [2])], hasOpen := false, openErr := none }

/-- A segment set used in witnesses: universe `{"a"}`, empty cache. -/
def ssW : SegmentSet := { segments := [(1, fsegW)], cache := [], maxOpen := 2, permits := 0 }

/-- C2, counterexample: on an empty table whose partitioner maps key `[1]`
to the absent segment name `1`, `Table.Get` returns `(nil, nil)` and not
the `NotFound` sentinel the claim asserts for both `Has` and `Get`. -/
theorem claim_C2_counterexample :
    envW.partition [1] = 1 ∧
    lookupA tableDegenerate.ldbSegments 1 = none ∧
    tableDegenerate.segments.containsName 1 = false ∧
    (tableDegenerate.get envW [1]).2 = .ok none ∧
    (tableDegenerate.get envW [1]).2 ≠ .error .notFound := by
  refine ⟨rfl, rfl, rfl, by decide, by decide⟩

/-- C2, amended: when a key's partition names a segment absent from the
writable tier, the immutable universe and the opened-segment cache,
`Table.Has` returns the `NotFound` sentinel error while `Table.Get`
returns a nil value with a nil error. -/
theorem claim_C2_absent_segment_reads (env : Env) (t : Table) (key : Bytes)
    (h1 : lookupA t.ldbSegments (env.partition key) = none)
    (h2 : lookupA t.segments.cache (env.partition key) = none)
    (h3 : lookupA t.segments.segments (env.partition key) = none) :
    (t.hasKey env key).2 = .error .notFound ∧
    (t.get env key).2 = .ok none := by
  unfold Table.hasKey Table.get Table.acquireSegment SegmentSet.acquire cacheGetTouch
  simp [h1, h2, h3]

theorem claim_C2_witness :
    (tableDegenerate.hasKey envW [1]).2 = .error .notFound ∧
    (tableDegenerate.get envW [1]).2 = .ok none :=
  claim_C2_absent_segment_reads envW tableDegenerate [1] (by decide) (by decide) (by decide)

/-- C4: `SegmentSet.Acquire` takes one permit first; a cache hit is
returned holding the permit; a name outside the universe releases the
permit and yields null with no error; a failing `Open` releases the permit
and surfaces the error; otherwise the segment is cached in the LRU and
returned holding the permit. -/
theorem claim_C4_acquire (ss : SegmentSet) (name : Name) :
    (∀ s, lookupA ss.cache name = some s →
      (ss.acquire name).2 = .ok (some s) ∧
      (ss.acquire name).1.permits = ss.permits + 1) ∧
    (lookupA ss.cache name = none → lookupA ss.segments name = none →
      (ss.acquire name).2 = .ok none ∧
      (ss.acquire name).1.permits = ss.permits) ∧
    (∀ s e, lookupA ss.cache name = none → lookupA ss.segments name = some s →
      s.hasOpen = true → s.openErr = some e →
      (ss.acquire name).2 = .error e ∧
      (ss.acquire name).1.permits = ss.permits) ∧
    (∀ s, lookupA ss.cache name = none → lookupA ss.segments name = some s →
      (s.hasOpen = false ∨ s.openErr = none) → 0 < ss.maxOpen →
      (ss.acquire name).2 = .ok (some s) ∧
      (ss.acquire name).1.permits = ss.permits + 1 ∧
      lookupA (ss.acquire name).1.cache name = some s) := by
  refine ⟨?_, ?_, ?_, ?_⟩
  · intro s hc
    unfold SegmentSet.acquire cacheGetTouch
    simp [hc]
  · intro hc hu
    unfold SegmentSet.acquire cacheGetTouch
    simp [hc, hu]
  · intro s e hc hu hop herr
    unfold SegmentSet.acquire cacheGetTouch
    simp [hc, hu, hop, herr]
  · intro s hc hu hok hcap
    unfold SegmentSet.acquire cacheGetTouch
    rcases hok with hop | herr
    · simp only [hc, hu, hop, Bool.false_eq_true, if_false, cacheAdd]
      exact ⟨by simp, by simp, lookupA_take_cons _ hcap _ _ _⟩
    · cases hop : s.hasOpen
      · simp only [hc, hu, hop, Bool.false_eq_true, if_false, cacheAdd]
        exact ⟨by simp, by simp, lookupA_take_cons _ hcap _ _ _⟩
      · simp only [hc, hu, hop, if_true, herr, cacheAdd]
        exact ⟨by simp, by simp, lookupA_take_cons _ hcap _ _ _⟩

theorem claim_C4_witness :
    lookupA ssW.cache 1 = none ∧ lookupA ssW.segments 1 = some fsegW ∧
    (ssW.acquire 1).2 = .ok (some fsegW) ∧
    (ssW.acquire 1).1.permits = ssW.permits + 1 ∧
    lookupA (ssW.acquire 1).1.cache 1 = some fsegW := by
  refine ⟨by decide, by decide, ?_⟩
  have h := (claim_C4_acquire ssW 1).2.2.2 fsegW (by decide) (by decide)
    (Or.inl (by decide)) (by decide)
  exact ⟨h.1, h.2.1, h.2.2⟩

/-- C9: a `Put` of an empty value on a key that currently reads as absent
(either the segment is missing, giving `(nil, nil)`, or the segment lacks
the key, giving the `NotFound` sentinel) is a complete no-op: it returns
nil, forwards nothing, and neither creates nor uncompacts a segment. -/
theorem claim_C9_put_empty_noop (env : Env) (t : Table) (key : Bytes)
    (h : (t.get env key).2 = .ok none ∨ (t.get env key).2 = .error .notFound) :
    (t.put env key []).2 = .ok () ∧
    (t.put env key []).1.ldbSegments = t.ldbSegments ∧
    (t.put env key []).1.segments.segments = t.segments.segments := by
  have hp := get_preserves_tiers env t key
  unfold Table.put
  rcases hg : t.get env key with ⟨t1, r⟩
  rw [hg] at hp h
  simp only [hg]
  rcases h with h | h <;> simp only at h <;> subst h <;> simpa using hp

theorem claim_C9_witness :
    ((tableSane.get envW [9]).2 = .ok none ∨
      (tableSane.get envW [9]).2 = .error Err.notFound) ∧
    (tableSane.put envW [9] []).2 = .ok () ∧
    (tableSane.put envW [9] []).1.ldbSegments = tableSane.ldbSegments ∧
    (tableSane.put envW [9] []).1.segments.segments = tableSane.segments.segments :=
  ⟨Or.inl (by decide), claim_C9_put_empty_noop envW tableSane [9] (Or.inl (by decide))⟩

/-- `compactLoop` never changes the `active` name. -/
theorem compactLoop_keeps_active (env : Env) (l : List LDBSegment) :
    ∀ t : Table, (compactLoop env l t).1.active = t.active := by
  induction l with
  | nil => intro t; rfl
  | cons s rest ih =>
    intro t
    unfold compactLoop
    rcases hs : env.stat s with e | m
    · rfl
    · simp only
      by_cases hy : env.now - m < t.minCompactionAge
      · simp only [hy, if_true]
        exact ih t
      · simp only [hy, if_false]
        rcases hcs : env.compactSegment s with e | ns
        · rfl
        · simp only
          exact ih _

/-- `Table.compact` never changes the `active` name. -/
theorem compact_keeps_active (env : Env) (t : Table) :
    (t.compact env).1.active = t.active := by
  unfold Table.compact
  by_cases h : t.ldbSegmentSlice.length < t.minMutableSegmentCount
  · simp [h]
  · simp only [h, if_false]
    exact compactLoop_keeps_active env _ t

/-- C3: `CreateSegmentIfNotExists` returns a live mutable segment as-is;
otherwise a name in the immutable universe is uncompacted; otherwise a
name below `active` fails with `ErrImmutableSegment` and changes nothing;
otherwise a fresh mutable segment is created under the name, `active` is
set to that name, and compaction runs before returning. -/
theorem claim_C3_createSegment (env : Env) (t : Table) (name : Name) :
    (∀ s, lookupA t.ldbSegments name = some s →
      t.createSegmentIfNotExists env name = (t, .ok s)) ∧
    (lookupA t.ldbSegments name = none → t.segments.containsName name = true →
      t.createSegmentIfNotExists env name = t.uncompact env name) ∧
    (lookupA t.ldbSegments name = none → t.segments.containsName name = false →
      name < t.active →
      t.createSegmentIfNotExists env name = (t, .error .immutableSegment)) ∧
    (lookupA t.ldbSegments name = none → t.segments.containsName name = false →
      ¬name < t.active → env.openNewLDB name = .ok () →
      (t.createSegmentIfNotExists env name).1.active = name ∧
      lookupA
        ({ t with
            ldbSegments :=
              insertA name { name := name, data := [], mtime := env.now } t.ldbSegments,
            active := name } : Table).ldbSegments name =
          some { name := name, data := [], mtime := env.now } ∧
      t.createSegmentIfNotExists env name =
        (match
            ({ t with
                ldbSegments :=
                  insertA name { name := name, data := [], mtime := env.now } t.ldbSegments,
                active := name } : Table).compact env with
          | (t2, .error e) => (t2, .error e)
          | (t2, .ok ()) => (t2, .ok { name := name, data := [], mtime := env.now }))) := by
  refine ⟨?_, ?_, ?_, ?_⟩
  · intro s h1
    unfold Table.createSegmentIfNotExists
    simp [h1]
  · intro h1 h2
    unfold Table.createSegmentIfNotExists
    simp [h1, h2]
  · intro h1 h2 h3
    unfold Table.createSegmentIfNotExists
    simp [h1, h2, h3]
  · intro h1 h2 h3 h4
    have hmain :
        t.createSegmentIfNotExists env name =
          (match
              ({ t with
                  ldbSegments :=
                    insertA name { name := name, data := [], mtime := env.now } t.ldbSegments,
                  active := name } : Table).compact env with
            | (t2, .error e) => (t2, .error e)
            | (t2, .ok ()) => (t2, .ok { name := name, data := [], mtime := env.now })) := by
      unfold Table.createSegmentIfNotExists
      simp [h1, h2, h3, h4]
    refine ⟨?_, lookupA_insert_self _ _ _, hmain⟩
    rw [hmain]
    have hk := compact_keeps_active env
      ({ t with
          ldbSegments :=
            insertA name { name := name, data := [], mtime := env.now } t.ldbSegments,
          active := name } : Table)
    rcases hc :
        ({ t with
            ldbSegments :=
              insertA name { name := name, data := [], mtime := env.now } t.ldbSegments,
            active := name } : Table).compact env with ⟨t2, r⟩
    rw [hc] at hk
    rcases r with e | u
    · simpa using hk
    · cases u
      simpa using hk

theorem claim_C3_witness :
    (tableSane.createSegmentIfNotExists envW 2).1.active = 2 ∧
    (tableSane.createSegmentIfNotExists envW 2).2 =
      .ok { name := 2, data := [], mtime := 0 } := by
  have h := (claim_C3_createSegment envW tableSane 2).2.2.2
    (by decide) (by decide) (by decide) (by decide)
  refine ⟨h.1, ?_⟩
  rw [h.2.2]
  decide

/-- The compaction behaviour claimed by the spec, written as a relation on
the processed segment list: a too-young segment is skipped, an old enough
one is converted and moved from the writable tier into the universe, and
the first stat or compactor error aborts with that error. -/
inductive CompactRel (env : Env) : List LDBSegment → Table → Table × Except Err Unit → Prop
  | done (t : Table) : CompactRel env [] t (t, .ok ())
  | statFail (s : LDBSegment) (rest : List LDBSegment) (t : Table) (e : Err) :
      env.stat s = .error e → CompactRel env (s :: rest) t (t, .error e)
  | young (s : LDBSegment) (rest : List LDBSegment) (t : Table) (m : Nat)
      (out : Table × Except Err Unit) :
      env.stat s = .ok m → env.now - m < t.minCompactionAge →
      CompactRel env rest t out → CompactRel env (s :: rest) t out
  | moved (s : LDBSegment) (rest : List LDBSegment) (t : Table) (m : Nat)
      (ns : FileSegment) (out : Table × Except Err Unit) :
      env.stat s = .ok m → ¬env.now - m < t.minCompactionAge →
      env.compactSegment s = .ok ns →
      CompactRel env rest
        { t with segments := t.segments.add ns,
                 ldbSegments := eraseA s.name t.ldbSegments } out →
      CompactRel env (s :: rest) t out
  | convFail (s : LDBSegment) (rest : List LDBSegment) (t : Table) (m : Nat) (e : Err) :
      env.stat s = .ok m → ¬env.now - m < t.minCompactionAge →
      env.compactSegment s = .error e → CompactRel env (s :: rest) t (t, .error e)

/-- The compaction loop satisfies the claimed relation. -/
theorem compactLoop_rel (env : Env) (l : List LDBSegment) :
    ∀ t : Table, CompactRel env l t (compactLoop env l t) := by
  induction l with
  | nil => intro t; exact .done t
  | cons s rest ih =>
    intro t
    unfold compactLoop
    rcases hs : env.stat s with e | m
    · exact .statFail s rest t e hs
    · simp only
      by_cases hy : env.now - m < t.minCompactionAge
      · simp only [hy, if_true]
        exact .young s rest t m _ hs hy (ih t)
      · simp only [hy, if_false]
        rcases hcs : env.compactSegment s with e | ns
        · exact .convFail s rest t m e hs hy hcs
        · simp only
          exact .moved s rest t m ns _ hs hy hcs (ih _)

/-- C5: compaction works on the writable segments sorted ascending by
name; every segment except the newest `MinMutableSegmentCount` ones is
processed by the claimed skip-young / move-to-universe / first-error-
aborts loop. -/
theorem claim_C5_compact (env : Env) (t : Table) :
    t.ldbSegmentSlice.Pairwise nameLe ∧
    CompactRel env
      (t.ldbSegmentSlice.take (t.ldbSegmentSlice.length - t.minMutableSegmentCount))
      t (t.compact env) := by
  constructor
  · exact List.sorted_insertionSort nameLe (t.ldbSegments.map Prod.snd)
  · unfold Table.compact
    by_cases h : t.ldbSegmentSlice.length < t.minMutableSegmentCount
    · have hz : t.ldbSegmentSlice.length - t.minMutableSegmentCount = 0 := by omega
      rw [hz]
      simp only [List.take_zero, h, if_true]
      exact .done t
    · simp only [h, if_false]
      exact compactLoop_rel env _ t

theorem acquireSegment_keeps_active (t : Table) (name : Name) :
    (t.acquireSegment name).1.active = t.active := by
  unfold Table.acquireSegment
  rcases h1 : lookupA t.ldbSegments name with _ | s
  · simp only [h1]
    split <;> rfl
  · simp [h1]

theorem get_keeps_active (env : Env) (t : Table) (key : Bytes) :
    (t.get env key).1.active = t.active := by
  unfold Table.get
  have ha := acquireSegment_keeps_active t (env.partition key)
  rcases h1 : t.acquireSegment (env.partition key) with ⟨t1, r⟩
  rw [h1] at ha
  simp only [h1]
  rcases r with e | v
  · exact ha
  · rcases v with _ | s
    · exact ha
    · rcases s with s | s
      · exact ha
      · simpa [Table.releaseSegment, SegmentSet.release] using ha

theorem uncompact_keeps_active (env : Env) (t : Table) (name : Name) :
    (t.uncompact env name).1.active = t.active := by
  unfold Table.uncompact
  rcases h1 : t.segments.acquire name with ⟨ss, r⟩
  rcases r with e | s?
  · rfl
  · simp only
    rcases h2 : env.uncompactSegment s? with e | u <;> rfl

theorem createSegment_active_mono (env : Env) (t : Table) (name : Name) :
    t.active ≤ (t.createSegmentIfNotExists env name).1.active := by
  unfold Table.createSegmentIfNotExists
  rcases h1 : lookupA t.ldbSegments name with _ | s
  · simp only [h1]
    by_cases h2 : t.segments.containsName name = true
    · simp only [h2, if_true]
      rw [uncompact_keeps_active]
    · simp only [h2, if_false, Bool.false_eq_true]
      by_cases h3 : name < t.active
      · simp [h3]
      · simp only [h3, if_false]
        rcases h4 : env.openNewLDB name with e | u
        · simp [h4]
        · cases u
          simp only
          have hk := compact_keeps_active env
            ({ t with
                ldbSegments :=
                  insertA name { name := name, data := [], mtime := env.now } t.ldbSegments,
                active := name } : Table)
          rcases hc :
              ({ t with
                  ldbSegments :=
                    insertA name { name := name, data := [], mtime := env.now } t.ldbSegments,
                  active := name } : Table).compact env with ⟨t2, r⟩
          rw [hc] at hk
          simp only at hk
          have hle : t.active ≤ name := Nat.le_of_not_lt h3
          rcases r with e | u
          · simpa [hk] using hle
          · cases u
            simpa [hk] using hle
  · simp [h1]

theorem segPut_keeps_active (t : Table) (name : Name) (seg : LDBSegment)
    (key value : Bytes) : (t.segPut name seg key value).active = t.active := by
  unfold Table.segPut
  rcases h1 : lookupA t.ldbSegments name with _ | cur
  · rfl
  · simp only
    by_cases h2 : cur = seg <;> simp [h2]

theorem put_active_mono (env : Env) (t : Table) (key value : Bytes) :
    t.active ≤ (t.put env key value).1.active := by
  unfold Table.put
  have hg := get_keeps_active env t key
  rcases h1 : t.get env key with ⟨t1, r⟩
  rw [h1] at hg
  simp only at hg
  simp only [h1]
  have hw : ∀ u : Table, u.active = t.active →
      t.active ≤ ((match u.createSegmentIfNotExists env (env.partition key) with
        | (t2, .error e) => (t2, .error e)
        | (t2, .ok seg) => (t2.segPut (env.partition key) seg key value, .ok ())) :
          Table × Except Err Unit).1.active := by
    intro u hu
    have hc := createSegment_active_mono env u (env.partition key)
    rcases h2 : u.createSegmentIfNotExists env (env.partition key) with ⟨t2, rc⟩
    rw [h2] at hc
    rcases rc with e | seg
    · simpa [hu] using hc
    · simp only
      rw [segPut_keeps_active]
      simpa [hu] using hc
  rcases r with e | v
  · by_cases he : e = Err.notFound
    · simp only [he, if_true]
      by_cases hv : value = []
      · simp [hv, hg]
      · simp only [hv, if_false]
        exact hw t1 hg
    · simp [he, hg]
  · rcases v with _ | v
    · by_cases hv : value = []
      · simp [hv, hg]
      · simp only [hv, if_false]
        exact hw t1 hg
    · by_cases hv : v = value
      · simp [hv, hg]
      · simp only [hv, if_false]
        exact hw t1 hg

theorem del_keeps_active (env : Env) (t : Table) (key : Bytes) :
    (t.del env key).1.active = t.active := by
  unfold Table.del
  have ha := acquireSegment_keeps_active t (env.partition key)
  rcases h1 : t.acquireSegment (env.partition key) with ⟨t1, r⟩
  rw [h1] at ha
  simp only [h1]
  rcases r with e | v
  · exact ha
  · rcases v with _ | s
    · exact ha
    · rcases s with s | s
      · simpa [Table.releaseSegment] using ha
      · simpa [Table.releaseSegment, SegmentSet.release] using ha

theorem bumpActive_mono (t : Table) (name : Name) :
    t.active ≤ (bumpActive t name).active := by
  unfold bumpActive
  by_cases h : t.active < name
  · rw [if_pos h]
    exact Nat.le_of_lt h
  · rw [if_neg h]

theorem openLoop_active_mono (env : Env) (l : List Name) :
    ∀ t : Table, t.active ≤ (openLoop env l t).1.active := by
  induction l with
  | nil => intro t; exact Nat.le_refl _
  | cons name rest ih =>
    intro t
    unfold openLoop
    have hdef : ∀ u : Table, u.active = t.active →
        t.active ≤ (openDefaultBranch env name (openLoop env rest) u).1.active := by
      intro u hu
      unfold openDefaultBranch
      rcases h2 : env.openSegment name with e | s
      · by_cases he : e = Err.segmentTypeUnknown
        · simp only [he, if_true]
          calc t.active = u.active := hu.symm
            _ ≤ _ := ih u
        · simp [he, hu]
      · simp only
        rw [← hu]
        exact Nat.le_trans
          (bumpActive_mono ({ u with segments := u.segments.add s } : Table) name) (ih _)
    rcases h1 : env.fileType name with e | ty
    · simp only [h1]
      by_cases he : e = Err.invalidSegmentType
      · simp only [he, if_true]
        exact ih t
      · simp only [he, if_false]
        by_cases hx : e = Err.notExist
        · simp only [hx, if_true]
          exact hdef t rfl
        · simp [hx]
    · cases ty
      · rcases h2 : env.openLDB name with e | data
        · simp [h1, h2, Table.closeTable]
        · simp only [h1, h2]
          exact Nat.le_trans
            (bumpActive_mono
              (Table.mk t.active
                (insertA name (LDBSegment.mk name data (env.mtimeOf name)) t.ldbSegments)
                t.segments t.minMutableSegmentCount t.minCompactionAge
                t.maxOpenSegmentCount) name) (ih _)
      · exact hdef t rfl

theorem openTable_active_mono (env : Env) (t : Table) :
    t.active ≤ (t.openTable env).1.active := by
  unfold Table.openTable
  simp only
  exact openLoop_active_mono env env.listNames
    ({ t with ldbSegments := [], segments := SegmentSet.new t.maxOpenSegmentCount } : Table)

theorem batchPut_active_mono (env : Env) (t : Table) (b : TableBatch)
    (key value : Bytes) : t.active ≤ (batchPut env t b key value).1.active := by
  unfold batchPut
  have hg := get_keeps_active env t key
  rcases h1 : t.get env key with ⟨t1, r⟩
  rw [h1] at hg
  simp only at hg
  simp only [h1]
  have hw : t.active ≤ ((match t1.createSegmentIfNotExists env (env.partition key) with
      | (t2, .error _) => (t2, b)
      | (t2, .ok seg) =>
        match lookupA b.batches (env.partition key) with
        | some (s0, entries) =>
          (t2, { batches := insertA (env.partition key) (s0, entries ++ [.putE key value]) b.batches,
                 size := b.size + value.length })
        | none =>
          (t2, { batches := insertA (env.partition key) (seg, [.putE key value]) b.batches,
                 size := b.size + value.length })) : Table × TableBatch).1.active := by
    have hc := createSegment_active_mono env t1 (env.partition key)
    rcases h2 : t1.createSegmentIfNotExists env (env.partition key) with ⟨t2, rc⟩
    rw [h2] at hc
    rcases rc with e | seg
    · simpa [hg] using hc
    · rcases h3 : lookupA b.batches (env.partition key) with _ | ⟨s0, entries⟩ <;>
        simp only [h3] <;> simpa [hg] using hc
  rcases r with e | v
  · by_cases he : e = Err.notFound
    · simp only [he, if_true]
      by_cases hv : value = []
      · simp [hv, hg]
      · simpa only [hv, if_false] using hw
    · simp [he, hg]
  · rcases v with _ | v
    · by_cases hv : value = []
      · simp [hv, hg]
      · simpa only [hv, if_false] using hw
    · by_cases hv : v = value
      · simp [hv, hg]
      · simpa only [hv, if_false] using hw

theorem batchDel_active_mono (env : Env) (t : Table) (b : TableBatch)
    (key : Bytes) : t.active ≤ (batchDel env t b key).1.active := by
  unfold batchDel
  have hg := get_keeps_active env t key
  rcases h1 : t.get env key with ⟨t1, r⟩
  rw [h1] at hg
  simp only at hg
  simp only [h1]
  rcases r with e | v
  · simp [hg]
  · simp only
    have hc := createSegment_active_mono env t1 (env.partition key)
    rcases h2 : t1.createSegmentIfNotExists env (env.partition key) with ⟨t2, rc⟩
    rw [h2] at hc
    rcases rc with e | seg
    · simpa [hg] using hc
    · rcases h3 : lookupA b.batches (env.partition key) with _ | ⟨s0, entries⟩ <;>
        simp only [h3] <;> simpa [hg] using hc

theorem batchWrite_keeps_active (t : Table) (b : TableBatch) :
    (batchWrite t b).active = t.active := by
  unfold batchWrite
  induction b.batches generalizing t with
  | nil => rfl
  | cons entry rest ih =>
    simp only [List.foldl_cons]
    rw [ih]
    rcases h1 : lookupA t.ldbSegments entry.1 with _ | cur
    · simp [h1]
    · simp only [h1]
      by_cases h2 : cur = entry.2.1 <;> simp [h2]

theorem runBatch_active_mono (env : Env) (t : Table) (ops : List BOp) :
    t.active ≤ (runBatch env t ops).active := by
  unfold runBatch
  have hfold : ∀ (st : Table × TableBatch),
      st.1.active ≤ (ops.foldl
        (fun (st : Table × TableBatch) op =>
          match op with
          | .bput k v => batchPut env st.1 st.2 k v
          | .bdel k => batchDel env st.1 st.2 k) st).1.active := by
    induction ops with
    | nil => intro st; exact Nat.le_refl _
    | cons op rest ih =>
      intro st
      simp only [List.foldl_cons]
      refine Nat.le_trans ?_ (ih _)
      rcases op with ⟨k, v⟩ | k
      · exact batchPut_active_mono env st.1 st.2 k v
      · exact batchDel_active_mono env st.1 st.2 k
  simp only
  rw [batchWrite_keeps_active]
  exact hfold (t, { batches := [], size := 0 })

/-- Every single table operation leaves `active` at or above its previous
value. -/
theorem stepT_active_mono (env : Env) (t : Table) (op : TOp) :
    t.active ≤ (stepT env t op).active := by
  rcases op with _ | ⟨k, v⟩ | k | _ | n | ops
  · exact openTable_active_mono env t
  · exact put_active_mono env t k v
  · exact Nat.le_of_eq (del_keeps_active env t k).symm
  · exact Nat.le_of_eq (compact_keeps_active env t).symm
  · exact createSegment_active_mono env t n
  · exact runBatch_active_mono env t ops

/-- C7: across any sequence of operations, the active segment name never
decreases (the `Nat` order on names stands in for Go's lexicographic
string order). -/
theorem claim_C7_active_monotone (env : Env) (ops : List TOp) (t : Table) :
    t.active ≤ (runT env ops t).active := by
  induction ops generalizing t with
  | nil => exact Nat.le_refl _
  | cons op rest ih =>
    unfold runT
    exact Nat.le_trans (stepT_active_mono env t op) (ih _)

/-- Every binding of the writable tier is keyed by its segment's name. -/
def LdbKeysOk (t : Table) : Prop := ∀ p ∈ t.ldbSegments, p.2.name = p.1

/-- Every binding of the universe and of the cache is keyed by its
segment's name. -/
def SetKeysOk (ss : SegmentSet) : Prop :=
  (∀ p ∈ ss.segments, p.2.name = p.1) ∧ (∀ p ∈ ss.cache, p.2.name = p.1)

/-- The claimed invariant: no segment name is present in both the
writable tier and the immutable universe. -/
def DisjointTiers (t : Table) : Prop :=
  ∀ n : Name, (lookupA t.ldbSegments n).isSome = true →
    lookupA t.segments.segments n = none

/-- The well-formedness of a table: key consistency on all three maps and
tier disjointness. -/
def TableInv (t : Table) : Prop :=
  LdbKeysOk t ∧ SetKeysOk t.segments ∧ DisjointTiers t

/-- Modelled from the spec: the external compactor, uncompactor and
segment opener (whose sources are not in the excerpt) produce segments
under the same name they were given — compaction/uncompaction convert a
segment in place, and `OpenSegment(table, name, path)` opens the file of
that name. -/
structure EnvOk (env : Env) : Prop where
  compactName : ∀ s ns, env.compactSegment s = .ok ns → ns.name = s.name
  uncompactName : ∀ s u, env.uncompactSegment (some s) = .ok u → u.name = s.name
  openSegName : ∀ n s, env.openSegment n = .ok s → s.name = n

theorem mem_of_mem_insertA {β : Type} {p : Name × β} {k : Name} {v : β}
    {l : List (Name × β)} (h : p ∈ insertA k v l) : p = (k, v) ∨ p ∈ l := by
  rcases List.mem_cons.mp h with h | h
  · exact Or.inl h
  · exact Or.inr (List.mem_of_mem_filter h)

theorem mem_of_mem_eraseA {β : Type} {p : Name × β} {k : Name}
    {l : List (Name × β)} (h : p ∈ eraseA k l) : p ∈ l :=
  List.mem_of_mem_filter h

theorem lookupA_mem {β : Type} {l : List (Name × β)} {k : Name} {v : β}
    (h : lookupA l k = some v) : (k, v) ∈ l := by
  unfold lookupA at h
  rcases hf : l.find? (fun p => p.1 = k) with _ | p
  · rw [hf] at h
    exact absurd h (by simp)
  · rw [hf] at h
    have hm := List.mem_of_find?_eq_some hf
    have hp := List.find?_some hf
    simp only [decide_eq_true_eq] at hp
    simp only [Option.some.injEq] at h
    rcases p with ⟨k', v'⟩
    simp only at hp h
    rw [← hp, ← h]
    exact hm

theorem lookupA_isSome_insert {β : Type} {k n : Name} {v : β}
    {l : List (Name × β)} (h : (lookupA (insertA k v l) n).isSome = true) :
    n = k ∨ (lookupA l n).isSome = true := by
  by_cases hn : n = k
  · exact Or.inl hn
  · right
    rwa [lookupA_insert_ne _ _ _ _ (fun he => hn he.symm)] at h

theorem lookupA_isSome_erase {β : Type} {k n : Name} {l : List (Name × β)}
    (h : (lookupA (eraseA k l) n).isSome = true) :
    n ≠ k ∧ (lookupA l n).isSome = true := by
  by_cases hn : n = k
  · subst hn
    rw [lookupA_erase_self] at h
    simp at h
  · rw [lookupA_erase_ne _ _ _ (fun he => hn he.symm)] at h
    exact ⟨hn, h⟩

/-- `SegmentSet.Acquire` keeps key consistency, keeps the universe, and
only hands out a segment carrying the requested name. -/
theorem acquire_inv (ss : SegmentSet) (name : Name) (h : SetKeysOk ss) :
    SetKeysOk (ss.acquire name).1 ∧
    (∀ s, (ss.acquire name).2 = .ok (some s) → s.name = name) := by
  rcases h with ⟨hu, hc⟩
  unfold SegmentSet.acquire
  rcases h2 : cacheGetTouch ss.cache name with _ | ⟨s, cache1⟩
  · simp only [h2]
    rcases h3 : lookupA ss.segments name with _ | s
    · exact ⟨⟨hu, hc⟩, by intro s hs; simp at hs⟩
    · have hns : s.name = name := hu _ (lookupA_mem h3)
      have hkeep : ∀ p ∈ cacheAdd ss.maxOpen name s ss.cache, p.2.name = p.1 := by
        intro p hp
        have hp2 := List.mem_of_mem_take hp
        rcases List.mem_cons.mp hp2 with hp3 | hp3
        · rw [hp3]
          exact hns
        · exact hc _ (mem_of_mem_eraseA hp3)
      cases hop : s.hasOpen
      · simp only [hop, Bool.false_eq_true, if_false]
        exact ⟨⟨hu, hkeep⟩, by intro u hu'; simp at hu'; rw [← hu']; exact hns⟩
      · simp only [hop, if_true]
        rcases ho : s.openErr with _ | e
        · simp only [ho]
          exact ⟨⟨hu, hkeep⟩, by intro u hu'; simp at hu'; rw [← hu']; exact hns⟩
        · simp only [ho]
          exact ⟨⟨hu, hc⟩, by intro u hu'; simp at hu'⟩
  · simp only [h2]
    unfold cacheGetTouch at h2
    rcases h4 : lookupA ss.cache name with _ | s0
    · rw [h4] at h2
      simp at h2
    · rw [h4] at h2
      simp only [Option.some.injEq, Prod.mk.injEq] at h2
      obtain ⟨hs, hcc⟩ := h2
      subst hs
      subst hcc
      have hs0 : s0.name = name := hc _ (lookupA_mem h4)
      constructor
      · refine ⟨hu, ?_⟩
        intro p hp
        rcases List.mem_cons.mp hp with hp3 | hp3
        · rw [hp3]
          exact hs0
        · exact hc _ (mem_of_mem_eraseA hp3)
      · intro u hu'
        simp only [Except.ok.injEq, Option.some.injEq] at hu'
        rw [← hu']
        exact hs0

theorem add_segments_eq (ss : SegmentSet) (s : FileSegment) :
    (ss.add s).segments = insertA s.name s ss.segments := rfl

theorem release_segments_eq (ss : SegmentSet) : ss.release.segments = ss.segments := rfl

theorem release_cache_eq (ss : SegmentSet) : ss.release.cache = ss.cache := rfl

theorem remove_segments_eq (ss : SegmentSet) (c : Bool) (name : Name) :
    (ss.remove c name).segments = eraseA name ss.segments := by
  unfold SegmentSet.remove
  split <;> rfl

theorem remove_cache_sub (ss : SegmentSet) (c : Bool) (name : Name) :
    ∀ p ∈ (ss.remove c name).cache, p ∈ ss.cache := by
  unfold SegmentSet.remove
  split
  · intro p hp
    exact hp
  · intro p hp
    exact mem_of_mem_eraseA hp

theorem acquire_none_universe (ss : SegmentSet) (name : Name)
    (h : (ss.acquire name).2 = .ok none) :
    lookupA ss.segments name = none := by
  unfold SegmentSet.acquire at h
  simp only at h
  rcases h2 : cacheGetTouch ss.cache name with _ | ⟨s, c⟩
  · rw [h2] at h
    simp only at h
    rcases h3 : lookupA ss.segments name with _ | s
    · rfl
    · rw [h3] at h
      simp only at h
      cases hop : s.hasOpen
      · rw [hop] at h
        simp at h
      · rw [hop] at h
        rcases ho : s.openErr with _ | e <;> rw [ho] at h <;> simp at h
  · rw [h2] at h
    simp at h

theorem acquireSegment_inv (t : Table) (name : Name) (h : TableInv t) :
    TableInv (t.acquireSegment name).1 := by
  obtain ⟨hl, hs, hd⟩ := h
  unfold Table.acquireSegment
  rcases h1 : lookupA t.ldbSegments name with _ | s
  · simp only [h1]
    have hai := acquire_inv t.segments name hs
    have hku := acquire_keeps_universe t.segments name
    split <;> rename_i heq <;> rw [heq] at hai hku <;>
      exact ⟨hl, hai.1, fun n hn => by rw [hku]; exact hd n hn⟩
  · simp only [h1]
    exact ⟨hl, hs, hd⟩

theorem releaseSegment_inv (t : Table) (s : TSeg) (h : TableInv t) :
    TableInv (t.releaseSegment s) := by
  obtain ⟨hl, hs, hd⟩ := h
  rcases s with s | s
  · exact ⟨hl, hs, hd⟩
  · exact ⟨hl, hs, hd⟩

theorem get_inv (env : Env) (t : Table) (key : Bytes) (h : TableInv t) :
    TableInv (t.get env key).1 := by
  unfold Table.get
  have hai := acquireSegment_inv t (env.partition key) h
  rcases h1 : t.acquireSegment (env.partition key) with ⟨t1, r⟩
  rw [h1] at hai
  simp only [h1]
  rcases r with e | v
  · exact hai
  · rcases v with _ | s
    · exact hai
    · exact releaseSegment_inv t1 s hai

theorem uncompact_inv (env : Env) (t : Table) (name : Name) (henv : EnvOk env)
    (h : TableInv t) (hc : t.segments.containsName name = true) :
    TableInv (t.uncompact env name).1 := by
  obtain ⟨hl, hs, hd⟩ := h
  unfold Table.uncompact
  have hai := acquire_inv t.segments name hs
  have hku := acquire_keeps_universe t.segments name
  rcases h1 : t.segments.acquire name with ⟨ss, r⟩
  rw [h1] at hai hku
  simp only at hku
  simp only [h1]
  rcases r with e | s?
  · exact ⟨hl, hai.1, fun n hn => by rw [hku]; exact hd n hn⟩
  · rcases s? with _ | s
    · -- `Acquire` returned null although the name is in the universe:
      -- impossible.
      have hnone := acquire_none_universe t.segments name (by rw [h1])
      unfold SegmentSet.containsName at hc
      rw [hnone] at hc
      simp at hc
    · have hsn : s.name = name := hai.2 s (by rfl)
      rcases h2 : env.uncompactSegment (some s) with e | u
      · simp only [h2]
        exact ⟨hl, hai.1,
          fun n hn => by simp only [release_segments_eq]; rw [hku]; exact hd n hn⟩
      · simp only [h2]
        have hun : u.name = name := by
          rw [henv.uncompactName s u h2]
          exact hsn
        obtain ⟨hau, hac⟩ := hai.1
        refine ⟨?_, ⟨?_, ?_⟩, ?_⟩
        · intro p hp
          rcases mem_of_mem_insertA hp with hp1 | hp1
          · rw [hp1]
            exact hun
          · exact hl _ hp1
        · intro p hp
          simp only [release_segments_eq, remove_segments_eq] at hp
          exact hau _ (mem_of_mem_eraseA hp)
        · intro p hp
          simp only [release_cache_eq] at hp
          exact hac _ (remove_cache_sub _ _ _ _ hp)
        · intro n hn
          by_cases hn1 : n = name
          · subst hn1
            simp only [release_segments_eq, remove_segments_eq]
            exact lookupA_erase_self _ _
          · have hold : (lookupA t.ldbSegments n).isSome = true := by
              have := lookupA_insert_ne (β := LDBSegment) n name u t.ldbSegments
                (fun he => hn1 he.symm)
              simp only at hn
              rwa [this] at hn
            simp only [release_segments_eq, remove_segments_eq]
            rw [lookupA_erase_ne _ _ _ (fun he => hn1 he.symm), hku]
            exact hd n hold

theorem compactLoop_inv (env : Env) (henv : EnvOk env) (l : List LDBSegment) :
    ∀ t : Table, TableInv t → TableInv (compactLoop env l t).1 := by
  induction l with
  | nil => intro t h; exact h
  | cons s rest ih =>
    intro t h
    obtain ⟨hl, ⟨hau, hac⟩, hd⟩ := h
    unfold compactLoop
    rcases hs : env.stat s with e | m
    · exact ⟨hl, ⟨hau, hac⟩, hd⟩
    · simp only
      by_cases hy : env.now - m < t.minCompactionAge
      · simp only [hy, if_true]
        exact ih t ⟨hl, ⟨hau, hac⟩, hd⟩
      · simp only [hy, if_false]
        rcases hcs : env.compactSegment s with e | ns
        · exact ⟨hl, ⟨hau, hac⟩, hd⟩
        · simp only
          refine ih _ ⟨?_, ⟨?_, hac⟩, ?_⟩
          · intro p hp
            exact hl _ (mem_of_mem_eraseA hp)
          · intro p hp
            rcases mem_of_mem_insertA hp with hp1 | hp1
            · rw [hp1]
            · exact hau _ hp1
          · intro n hn
            obtain ⟨hne, hold⟩ := lookupA_isSome_erase hn
            have hns : ns.name = s.name := henv.compactName s ns hcs
            show lookupA (t.segments.add ns).segments n = none
            simp only [add_segments_eq]
            rw [lookupA_insert_ne _ _ _ _ (by rw [hns]; exact fun he => hne he.symm)]
            exact hd n hold

theorem compact_inv (env : Env) (t : Table) (henv : EnvOk env) (h : TableInv t) :
    TableInv (t.compact env).1 := by
  unfold Table.compact
  by_cases h1 : t.ldbSegmentSlice.length < t.minMutableSegmentCount
  · simpa [h1] using h
  · simp only [h1, if_false]
    exact compactLoop_inv env henv _ t h

theorem createSegment_inv (env : Env) (t : Table) (name : Name)
    (henv : EnvOk env) (h : TableInv t) :
    TableInv (t.createSegmentIfNotExists env name).1 := by
  unfold Table.createSegmentIfNotExists
  rcases h1 : lookupA t.ldbSegments name with _ | s
  · simp only [h1]
    by_cases h2 : t.segments.containsName name = true
    · simp only [h2, if_true]
      exact uncompact_inv env t name henv h h2
    · simp only [h2, if_false, Bool.false_eq_true]
      by_cases h3 : name < t.active
      · simp only [h3, if_true]
        exact h
      · simp only [h3, if_false]
        rcases h4 : env.openNewLDB name with e | u
        · exact h
        · cases u
          simp only
          obtain ⟨hl, hs, hd⟩ := h
          have hnone : lookupA t.segments.segments name = none := by
            unfold SegmentSet.containsName at h2
            rcases hx : lookupA t.segments.segments name with _ | s
            · rfl
            · rw [hx] at h2
              simp at h2
          have h5 : TableInv
              ({ t with
                  ldbSegments :=
                    insertA name { name := name, data := [], mtime := env.now } t.ldbSegments,
                  active := name } : Table) := by
            refine ⟨?_, hs, ?_⟩
            · intro p hp
              rcases mem_of_mem_insertA hp with hp1 | hp1
              · rw [hp1]
              · exact hl _ hp1
            · intro n hn
              rcases lookupA_isSome_insert hn with hn1 | hn1
              · subst hn1
                exact hnone
              · exact hd n hn1
          have h6 := compact_inv env
            ({ t with
                ldbSegments :=
                  insertA name { name := name, data := [], mtime := env.now } t.ldbSegments,
                active := name } : Table) henv h5
          rcases hc :
              ({ t with
                  ldbSegments :=
                    insertA name { name := name, data := [], mtime := env.now } t.ldbSegments,
                  active := name } : Table).compact env with ⟨t2, r⟩
          rw [hc] at h6
          rcases r with e | u
          · exact h6
          · cases u
            exact h6
  · simp only [h1]
    exact h

/-- Updating the contents of an already-routed mutable segment preserves
the invariant. -/
theorem bumpActive_ldb_eq (t : Table) (name : Name) :
    (bumpActive t name).ldbSegments = t.ldbSegments := by
  unfold bumpActive
  split <;> rfl

theorem bumpActive_segments_eq (t : Table) (name : Name) :
    (bumpActive t name).segments = t.segments := by
  unfold bumpActive
  split <;> rfl

/-- Updating the contents of an already-routed mutable segment preserves
the invariant. -/
theorem ldb_update_inv (t : Table) (name : Name) (seg seg1 : LDBSegment)
    (h : TableInv t) (hlk : lookupA t.ldbSegments name = some seg)
    (hn1 : seg1.name = seg.name) :
    TableInv { t with ldbSegments := insertA name seg1 t.ldbSegments } := by
  obtain ⟨hl, hs, hd⟩ := h
  have hsn : seg.name = name := hl _ (lookupA_mem hlk)
  refine ⟨?_, hs, ?_⟩
  · intro p hp
    rcases mem_of_mem_insertA hp with hp1 | hp1
    · rw [hp1]
      show seg1.name = name
      rw [hn1]
      exact hsn
    · exact hl _ hp1
  · intro n hn
    by_cases hne : n = name
    · subst hne
      refine hd n ?_
      rw [hlk]
      rfl
    · have hold : (lookupA t.ldbSegments n).isSome = true := by
        have := lookupA_insert_ne (β := LDBSegment) n name seg1 t.ldbSegments
          (fun he => hne he.symm)
        simp only at hn
        rwa [this] at hn
      exact hd n hold

theorem segPut_inv (t : Table) (name : Name) (seg : LDBSegment)
    (key value : Bytes) (h : TableInv t) :
    TableInv (t.segPut name seg key value) := by
  unfold Table.segPut
  rcases h1 : lookupA t.ldbSegments name with _ | cur
  · simpa [h1] using h
  · simp only [h1]
    by_cases h2 : cur = seg
    · simp only [h2, if_true]
      subst h2
      exact ldb_update_inv t name cur _ h h1 rfl
    · simpa [h2] using h

theorem put_inv (env : Env) (t : Table) (key value : Bytes) (henv : EnvOk env)
    (h : TableInv t) : TableInv (t.put env key value).1 := by
  unfold Table.put
  have hg := get_inv env t key h
  rcases h1 : t.get env key with ⟨t1, r⟩
  rw [h1] at hg
  simp only at hg
  simp only [h1]
  have hw : TableInv ((match t1.createSegmentIfNotExists env (env.partition key) with
      | (t2, .error e) => (t2, .error e)
      | (t2, .ok seg) => (t2.segPut (env.partition key) seg key value, .ok ())) :
        Table × Except Err Unit).1 := by
    have hc := createSegment_inv env t1 (env.partition key) henv hg
    rcases h2 : t1.createSegmentIfNotExists env (env.partition key) with ⟨t2, rc⟩
    rw [h2] at hc
    rcases rc with e | seg
    · exact hc
    · exact segPut_inv t2 (env.partition key) seg key value hc
  rcases r with e | v
  · by_cases he : e = Err.notFound
    · simp only [he, if_true]
      by_cases hv : value = []
      · simpa [hv] using hg
      · simpa only [hv, if_false] using hw
    · simpa [he] using hg
  · rcases v with _ | v
    · by_cases hv : value = []
      · simpa [hv] using hg
      · simpa only [hv, if_false] using hw
    · by_cases hv : v = value
      · simpa [hv] using hg
      · simpa only [hv, if_false] using hw

/-- `AcquireSegment` hands out a mutable segment only straight from the
writable tier, leaving the table untouched. -/
theorem acquireSegment_ldb (t : Table) (name : Name) (t1 : Table)
    (s : LDBSegment) (h : t.acquireSegment name = (t1, .ok (some (.ldb s)))) :
    t1 = t ∧ lookupA t.ldbSegments name = some s := by
  unfold Table.acquireSegment at h
  rcases h3 : lookupA t.ldbSegments name with _ | s0
  · rw [h3] at h
    simp only at h
    rcases h4 : t.segments.acquire name with ⟨ss, r⟩
    rw [h4] at h
    rcases r with e | v
    · simp at h
    · rcases v with _ | s1 <;> simp at h
  · rw [h3] at h
    simp only at h
    injection h with ha hb
    simp only [Except.ok.injEq, Option.some.injEq, TSeg.ldb.injEq] at hb
    rw [← hb]
    exact ⟨ha.symm, rfl⟩

theorem del_inv (env : Env) (t : Table) (key : Bytes) (h : TableInv t) :
    TableInv (t.del env key).1 := by
  unfold Table.del
  have hai := acquireSegment_inv t (env.partition key) h
  rcases h1 : t.acquireSegment (env.partition key) with ⟨t1, r⟩
  rw [h1] at hai
  simp only [h1]
  rcases r with e | v
  · exact hai
  · rcases v with _ | s
    · exact hai
    · rcases s with s | s
      · simp only [Table.releaseSegment]
        obtain ⟨ht1, hlk⟩ := acquireSegment_ldb t (env.partition key) t1 s h1
        subst ht1
        exact ldb_update_inv t1 (env.partition key) s _ hai hlk rfl
      · exact releaseSegment_inv t1 (.file s) hai

/-- The partial invariant maintained while `Table.Open` scans the
directory: tier consistency plus the fact that each tier only holds names
whose probed file type routes there. -/
def OpenInv (env : Env) (t : Table) : Prop :=
  TableInv t ∧
  (∀ n, (lookupA t.ldbSegments n).isSome = true → env.fileType n = .ok .ldb1) ∧
  (∀ n, (lookupA t.segments.segments n).isSome = true → env.fileType n ≠ .ok .ldb1)

theorem openInv_bump (env : Env) (u : Table) (name : Name)
    (h : OpenInv env u) : OpenInv env (bumpActive u name) := by
  obtain ⟨⟨hl, hs, hd⟩, htl, htu⟩ := h
  unfold bumpActive
  split
  · exact ⟨⟨hl, hs, hd⟩, htl, htu⟩
  · exact ⟨⟨hl, hs, hd⟩, htl, htu⟩

theorem openDefaultBranch_inv (env : Env) (name : Name) (henv : EnvOk env)
    (cont : Table → Table × Except Err Unit)
    (hcont : ∀ u : Table, OpenInv env u → OpenInv env (cont u).1)
    (t : Table) (h : OpenInv env t) (hft : env.fileType name ≠ .ok .ldb1) :
    OpenInv env (openDefaultBranch env name cont t).1 := by
  unfold openDefaultBranch
  rcases h1 : env.openSegment name with e | s
  · by_cases he : e = Err.segmentTypeUnknown
    · simp only [he, if_true]
      exact hcont t h
    · simp only [he, if_false]
      exact h
  · simp only
    obtain ⟨⟨hl, ⟨hau, hac⟩, hd⟩, htl, htu⟩ := h
    have hsn : s.name = name := henv.openSegName name s h1
    refine hcont _ (openInv_bump env _ name ⟨⟨hl, ⟨?_, hac⟩, ?_⟩, htl, ?_⟩)
    · intro p hp
      simp only [add_segments_eq] at hp
      rcases mem_of_mem_insertA hp with hp1 | hp1
      · rw [hp1]
      · exact hau _ hp1
    · intro n hn
      show lookupA (t.segments.add s).segments n = none
      simp only [add_segments_eq]
      by_cases hn1 : n = s.name
      · subst hn1
        have h5 := htl _ hn
        rw [hsn] at h5
        exact absurd h5 hft
      · rw [lookupA_insert_ne _ _ _ _ (fun he => hn1 he.symm)]
        exact hd n hn
    · intro n hn
      have hn2 : (lookupA (insertA s.name s t.segments.segments) n).isSome = true := hn
      by_cases hn1 : n = s.name
      · subst hn1
        rw [hsn]
        exact hft
      · rw [lookupA_insert_ne _ _ _ _ (fun he => hn1 he.symm)] at hn2
        exact htu n hn2

theorem openLoop_inv (env : Env) (henv : EnvOk env) (l : List Name) :
    ∀ t : Table, OpenInv env t → OpenInv env (openLoop env l t).1 := by
  induction l with
  | nil => intro t h; exact h
  | cons name rest ih =>
    intro t h
    unfold openLoop
    rcases h1 : env.fileType name with e | ty
    · simp only [h1]
      by_cases he : e = Err.invalidSegmentType
      · simp only [he, if_true]
        exact ih t h
      · simp only [he, if_false]
        by_cases hx : e = Err.notExist
        · simp only [hx, if_true]
          exact openDefaultBranch_inv env name henv _ (ih) t h
            (by rw [h1]; intro hq; cases hq)
        · simp only [hx, if_false]
          exact h
    · cases ty
      · rcases h2 : env.openLDB name with e | data
        · simp only [h1, h2]
          obtain ⟨⟨hl, hs, hd⟩, htl, htu⟩ := h
          refine ⟨⟨hl, ⟨?_, ?_⟩, ?_⟩, htl, ?_⟩
          · intro p hp
            simp [Table.closeTable, SegmentSet.close] at hp
          · intro p hp
            simp [Table.closeTable, SegmentSet.close] at hp
          · intro n hn
            simp [Table.closeTable, SegmentSet.close, lookupA]
          · intro n hn
            simp [Table.closeTable, SegmentSet.close, lookupA] at hn
        · simp only [h1, h2]
          obtain ⟨⟨hl, ⟨hau, hac⟩, hd⟩, htl, htu⟩ := h
          refine ih _ (openInv_bump env _ name ⟨⟨?_, ⟨hau, hac⟩, ?_⟩, ?_, ?_⟩)
          · intro p hp
            rcases mem_of_mem_insertA hp with hp1 | hp1
            · rw [hp1]
            · exact hl _ hp1
          · intro n hn
            by_cases hn1 : n = name
            · rcases hq : lookupA t.segments.segments n with _ | s
              · rfl
              · have h6 := htu n (by rw [hq]; rfl)
                rw [hn1] at h6
                exact absurd h1 h6
            · have hn2 : (lookupA t.ldbSegments n).isSome = true := by
                have := lookupA_insert_ne (β := LDBSegment) n name
                  { name := name, data := data, mtime := env.mtimeOf name } t.ldbSegments
                  (fun he => hn1 he.symm)
                simp only at hn
                rwa [this] at hn
              exact hd n hn2
          · intro n hn
            by_cases hn1 : n = name
            · subst hn1
              exact h1
            · have hn2 : (lookupA t.ldbSegments n).isSome = true := by
                have := lookupA_insert_ne (β := LDBSegment) n name
                  { name := name, data := data, mtime := env.mtimeOf name } t.ldbSegments
                  (fun he => hn1 he.symm)
                simp only at hn
                rwa [this] at hn
              exact htl n hn2
          · intro n hn
            exact htu n hn
      · simp only [h1]
        exact openDefaultBranch_inv env name henv _ (ih) t h
          (by rw [h1]; intro hq; cases hq)

theorem openTable_inv (env : Env) (t : Table) (henv : EnvOk env) :
    TableInv (t.openTable env).1 := by
  unfold Table.openTable
  simp only
  have h0 : OpenInv env { t with ldbSegments := ([] : List (Name × LDBSegment)), segments := SegmentSet.new t.maxOpenSegmentCount } := by
    refine ⟨⟨?_, ⟨?_, ?_⟩, ?_⟩, ?_, ?_⟩
    · intro p hp
      simp at hp
    · intro p hp
      simp [SegmentSet.new] at hp
    · intro p hp
      simp [SegmentSet.new] at hp
    · intro n hn
      simp [lookupA] at hn
    · intro n hn
      simp [lookupA] at hn
    · intro n hn
      simp [SegmentSet.new, lookupA] at hn
  exact (openLoop_inv env henv env.listNames _ h0).1

theorem batchPut_inv (env : Env) (t : Table) (b : TableBatch)
    (key value : Bytes) (henv : EnvOk env) (h : TableInv t) :
    TableInv (batchPut env t b key value).1 := by
  unfold batchPut
  have hg := get_inv env t key h
  rcases h1 : t.get env key with ⟨t1, r⟩
  rw [h1] at hg
  simp only at hg
  simp only [h1]
  have hw : TableInv ((match t1.createSegmentIfNotExists env (env.partition key) with
      | (t2, .error _) => (t2, b)
      | (t2, .ok seg) =>
        match lookupA b.batches (env.partition key) with
        | some (s0, entries) =>
          (t2, { batches := insertA (env.partition key)
                  (s0, entries ++ [.putE key value]) b.batches,
                 size := b.size + value.length })
        | none =>
          (t2, { batches := insertA (env.partition key)
                  (seg, [.putE key value]) b.batches,
                 size := b.size + value.length })) : Table × TableBatch).1 := by
    have hc := createSegment_inv env t1 (env.partition key) henv hg
    rcases h2 : t1.createSegmentIfNotExists env (env.partition key) with ⟨t2, rc⟩
    rw [h2] at hc
    rcases rc with e | seg
    · exact hc
    · rcases h3 : lookupA b.batches (env.partition key) with _ | ⟨s0, entries⟩ <;>
        simp only [h3] <;> exact hc
  rcases r with e | v
  · by_cases he : e = Err.notFound
    · simp only [he, if_true]
      by_cases hv : value = []
      · simpa [hv] using hg
      · simpa only [hv, if_false] using hw
    · simpa [he] using hg
  · rcases v with _ | v
    · by_cases hv : value = []
      · simpa [hv] using hg
      · simpa only [hv, if_false] using hw
    · by_cases hv : v = value
      · simpa [hv] using hg
      · simpa only [hv, if_false] using hw

theorem batchDel_inv (env : Env) (t : Table) (b : TableBatch) (key : Bytes)
    (henv : EnvOk env) (h : TableInv t) :
    TableInv (batchDel env t b key).1 := by
  unfold batchDel
  have hg := get_inv env t key h
  rcases h1 : t.get env key with ⟨t1, r⟩
  rw [h1] at hg
  simp only at hg
  simp only [h1]
  rcases r with e | v
  · exact hg
  · simp only
    have hc := createSegment_inv env t1 (env.partition key) henv hg
    rcases h2 : t1.createSegmentIfNotExists env (env.partition key) with ⟨t2, rc⟩
    rw [h2] at hc
    rcases rc with e | seg
    · exact hc
    · rcases h3 : lookupA b.batches (env.partition key) with _ | ⟨s0, entries⟩ <;>
        simp only [h3] <;> exact hc

theorem batchWrite_inv (t : Table) (b : TableBatch) (h : TableInv t) :
    TableInv (batchWrite t b) := by
  unfold batchWrite
  induction b.batches generalizing t with
  | nil => exact h
  | cons entry rest ih =>
    simp only [List.foldl_cons]
    apply ih
    rcases h1 : lookupA t.ldbSegments entry.1 with _ | cur
    · simpa [h1] using h
    · simp only [h1]
      by_cases h2 : cur = entry.2.1
      · simp only [h2, if_true]
        exact ldb_update_inv t entry.1 cur _ h h1 (by rw [h2])
      · simpa [h2] using h

theorem runBatch_inv (env : Env) (t : Table) (ops : List BOp)
    (henv : EnvOk env) (h : TableInv t) : TableInv (runBatch env t ops) := by
  unfold runBatch
  simp only
  have hfold : ∀ (st : Table × TableBatch), TableInv st.1 →
      TableInv (ops.foldl
        (fun (st : Table × TableBatch) op =>
          match op with
          | .bput k v => batchPut env st.1 st.2 k v
          | .bdel k => batchDel env st.1 st.2 k) st).1 := by
    induction ops with
    | nil => intro st hst; exact hst
    | cons op rest ih =>
      intro st hst
      simp only [List.foldl_cons]
      apply ih
      rcases op with ⟨k, v⟩ | k
      · exact batchPut_inv env st.1 st.2 k v henv hst
      · exact batchDel_inv env st.1 st.2 k henv hst
  have hf := hfold (t, { batches := [], size := 0 }) h
  rcases hx : ops.foldl
      (fun (st : Table × TableBatch) op =>
        match op with
        | .bput k v => batchPut env st.1 st.2 k v
        | .bdel k => batchDel env st.1 st.2 k)
      (t, { batches := [], size := 0 }) with ⟨t1, b1⟩
  rw [hx] at hf
  simp only [hx]
  exact batchWrite_inv t1 b1 hf

theorem stepT_inv (env : Env) (t : Table) (op : TOp) (henv : EnvOk env)
    (h : TableInv t) : TableInv (stepT env t op) := by
  rcases op with _ | ⟨k, v⟩ | k | _ | n | ops
  · exact openTable_inv env t henv
  · exact put_inv env t k v henv h
  · exact del_inv env t k h
  · exact compact_inv env t henv h
  · exact createSegment_inv env t n henv h
  · exact runBatch_inv env t ops henv h

/-- C6: for every well-formed table and every sequence of operations
(`Open`, `Put`, `Delete`, `Compact`, `CreateSegmentIfNotExists`, batch
writes), after the sequence completes no segment name is present in both
the writable tier and the immutable universe. -/
theorem claim_C6_tier_disjoint (env : Env) (ops : List TOp) (t : Table)
    (henv : EnvOk env) (h : TableInv t) :
    ∀ n : Name, (lookupA (runT env ops t).ldbSegments n).isSome = true →
      lookupA (runT env ops t).segments.segments n = none := by
  have hrun : TableInv (runT env ops t) := by
    induction ops generalizing t with
    | nil => exact h
    | cons op rest ih => exact ih _ (stepT_inv env t op henv h)
  exact hrun.2.2

theorem envW_ok : EnvOk envW := by
  refine ⟨?_, ?_, ?_⟩
  · intro s ns h
    injection h with h2
    rw [← h2]
  · intro s u h
    injection h with h2
    rw [← h2]
  · intro n s h
    exact Except.noConfusion h

theorem tableSane_inv : TableInv tableSane := by
  refine ⟨?_, ⟨?_, ?_⟩, ?_⟩
  · intro p hp
    simp [tableSane] at hp
  · intro p hp
    simp [tableSane, SegmentSet.new] at hp
  · intro p hp
    simp [tableSane, SegmentSet.new] at hp
  · intro n hn
    simp [tableSane, lookupA] at hn

theorem claim_C6_witness :
    (lookupA (runT envW [TOp.put [1] [2]] tableSane).ldbSegments 1).isSome = true ∧
    lookupA (runT envW [TOp.put [1] [2]] tableSane).segments.segments 1 = none :=
  ⟨by decide,
   claim_C6_tier_disjoint envW [TOp.put [1] [2]] tableSane envW_ok tableSane_inv 1 (by decide)⟩

/-- C8, counterexample: with `MinMutableSegmentCount = 0` and
`MinCompactionAge = 0`, the compaction run by the first `Put` converts the
freshly created segment before the write lands in it, so the write is lost
to the table; the bit-equal second `Put` then does not short-circuit — it
uncompacts the segment and forwards a second write (the writable tier
changes). -/
theorem claim_C8_counterexample :
    (tableDegenerate.put envW [1] [2]).2 = .ok () ∧
    ((tableDegenerate.put envW [1] [2]).1.put envW [1] [2]).2 = .ok () ∧
    ((tableDegenerate.put envW [1] [2]).1.put envW [1] [2]).1.ldbSegments ≠
      (tableDegenerate.put envW [1] [2]).1.ldbSegments := by
  refine ⟨by decide, by decide, by decide⟩

/-- Outcome of `Acquire` on a cache hit. -/
theorem acquire_eq_cache_hit (ss : SegmentSet) (name : Name) (s : FileSegment)
    (h : lookupA ss.cache name = some s) :
    ss.acquire name =
      ({ ss with permits := ss.permits + 1, cache := (name, s) :: eraseA name ss.cache },
        .ok (some s)) := by
  unfold SegmentSet.acquire cacheGetTouch
  simp [h]

/-- Outcome of `Acquire` on a name outside both cache and universe. -/
theorem acquire_eq_absent (ss : SegmentSet) (name : Name)
    (hc : lookupA ss.cache name = none) (hu : lookupA ss.segments name = none) :
    ss.acquire name = ({ ss with permits := ss.permits + 1 - 1 }, .ok none) := by
  unfold SegmentSet.acquire cacheGetTouch
  simp [hc, hu]

/-- Outcome of `Acquire` when the segment's `Open` fails. -/
theorem acquire_eq_open_err (ss : SegmentSet) (name : Name) (s : FileSegment)
    (e : Err) (hc : lookupA ss.cache name = none)
    (hu : lookupA ss.segments name = some s) (hop : s.hasOpen = true)
    (ho : s.openErr = some e) :
    ss.acquire name = ({ ss with permits := ss.permits + 1 - 1 }, .error e) := by
  unfold SegmentSet.acquire cacheGetTouch
  simp [hc, hu, hop, ho]

/-- Outcome of `Acquire` when the segment opens (or needs no opening). -/
theorem acquire_eq_opened (ss : SegmentSet) (name : Name) (s : FileSegment)
    (hc : lookupA ss.cache name = none) (hu : lookupA ss.segments name = some s)
    (hok : s.hasOpen = false ∨ s.openErr = none) :
    ss.acquire name =
      ({ ss with permits := ss.permits + 1, cache := cacheAdd ss.maxOpen name s ss.cache }, .ok (some s)) := by
  unfold SegmentSet.acquire cacheGetTouch
  rcases hok with hop | ho
  · simp [hc, hu, hop]
  · cases hop : s.hasOpen
    · simp [hc, hu, hop]
    · simp [hc, hu, hop, ho]

/-- A second `SegmentSet.Acquire` of the same name, from the state the
first one left (with any permit count), returns the same outcome. -/
theorem acquire_again (ss : SegmentSet) (name : Name) (p : Nat) :
    (({ (ss.acquire name).1 with permits := p } : SegmentSet).acquire name).2 =
      (ss.acquire name).2 := by
  rcases h4 : lookupA ss.cache name with _ | s
  · rcases h3 : lookupA ss.segments name with _ | s
    · rw [acquire_eq_absent ss name h4 h3]
      simp only
      rw [acquire_eq_absent (SegmentSet.mk ss.segments ss.cache ss.maxOpen p) name h4 h3]
    · cases hop : s.hasOpen
      · rw [acquire_eq_opened ss name s h4 h3 (Or.inl hop)]
        simp only
        by_cases hm : ss.maxOpen = 0
        · have hcc : lookupA (cacheAdd ss.maxOpen name s ss.cache) name = none := by
            simp [cacheAdd, hm, lookupA]
          rw [acquire_eq_opened
            (SegmentSet.mk ss.segments (cacheAdd ss.maxOpen name s ss.cache) ss.maxOpen p)
            name s hcc h3 (Or.inl hop)]
        · have hcc : lookupA (cacheAdd ss.maxOpen name s ss.cache) name = some s := by
            rcases Nat.exists_eq_succ_of_ne_zero hm with ⟨m, hm2⟩
            simp only [cacheAdd, hm2]
            rw [List.take_succ_cons]
            exact lookupA_cons_self _ _ _
          rw [acquire_eq_cache_hit
            (SegmentSet.mk ss.segments (cacheAdd ss.maxOpen name s ss.cache) ss.maxOpen p)
            name s hcc]
      · rcases ho : s.openErr with _ | e
        · rw [acquire_eq_opened ss name s h4 h3 (Or.inr ho)]
          simp only
          by_cases hm : ss.maxOpen = 0
          · have hcc : lookupA (cacheAdd ss.maxOpen name s ss.cache) name = none := by
              simp [cacheAdd, hm, lookupA]
            rw [acquire_eq_opened
              (SegmentSet.mk ss.segments (cacheAdd ss.maxOpen name s ss.cache) ss.maxOpen p)
              name s hcc h3 (Or.inr ho)]
          · have hcc : lookupA (cacheAdd ss.maxOpen name s ss.cache) name = some s := by
              rcases Nat.exists_eq_succ_of_ne_zero hm with ⟨m, hm2⟩
              simp only [cacheAdd, hm2]
              rw [List.take_succ_cons]
              exact lookupA_cons_self _ _ _
            rw [acquire_eq_cache_hit
              (SegmentSet.mk ss.segments (cacheAdd ss.maxOpen name s ss.cache) ss.maxOpen p)
              name s hcc]
        · rw [acquire_eq_open_err ss name s e h4 h3 hop ho]
          simp only
          rw [acquire_eq_open_err (SegmentSet.mk ss.segments ss.cache ss.maxOpen p)
            name s e h4 h3 hop ho]
  · rw [acquire_eq_cache_hit ss name s h4]
    simp only
    rw [acquire_eq_cache_hit
      (SegmentSet.mk ss.segments ((name, s) :: eraseA name ss.cache) ss.maxOpen p)
      name s (lookupA_cons_self _ _ _)]

theorem get_keeps_minAge (env : Env) (t : Table) (key : Bytes) :
    (t.get env key).1.minCompactionAge = t.minCompactionAge := by
  unfold Table.get
  rcases h1 : t.acquireSegment (env.partition key) with ⟨t1, r⟩
  have ha : t1.minCompactionAge = t.minCompactionAge := by
    unfold Table.acquireSegment at h1
    rcases h2 : lookupA t.ldbSegments (env.partition key) with _ | s
    · rw [h2] at h1
      simp only at h1
      rcases h3 : t.segments.acquire (env.partition key) with ⟨ss, rr⟩
      rw [h3] at h1
      rcases rr with e | v
      · injection h1 with ha hb
        rw [← ha]
      · rcases v with _ | s <;>
          (injection h1 with ha hb
           rw [← ha])
    · rw [h2] at h1
      injection h1 with ha hb
      rw [← ha]
  simp only [h1]
  rcases r with e | v
  · exact ha
  · rcases v with _ | s
    · exact ha
    · rcases s with s | s
      · exact ha
      · exact ha

/-- Nothing in the compaction loop touches a name whose segments are all
too fresh to compact (in particular the just-created active segment). -/
theorem compactLoop_keeps_name (env : Env) (name : Name) (l : List LDBSegment) :
    ∀ t : Table, 0 < t.minCompactionAge →
      (∀ s ∈ l, s.name = name → s.mtime = env.now) →
      lookupA (compactLoop env l t).1.ldbSegments name = lookupA t.ldbSegments name := by
  induction l with
  | nil => intro t _ _; rfl
  | cons s rest ih =>
    intro t hage hfresh
    unfold compactLoop
    rcases hs : env.stat s with e | m
    · rfl
    · simp only
      by_cases hy : env.now - m < t.minCompactionAge
      · simp only [hy, if_true]
        exact ih t hage (fun s' hs' => hfresh s' (List.mem_cons_of_mem _ hs'))
      · simp only [hy, if_false]
        have hne : s.name ≠ name := by
          intro hn
          have hmt : s.mtime = env.now := hfresh s (List.mem_cons_self _ _) hn
          have hm : m = s.mtime := by
            unfold Env.stat at hs
            rcases hq : env.statErr s.name with _ | e
            · rw [hq] at hs
              injection hs with h
              exact h.symm
            · rw [hq] at hs
              exact absurd hs (by simp)
          rw [hm, hmt] at hy
          simp only [Nat.sub_self] at hy
          exact hy hage
        rcases hcs : env.compactSegment s with e | ns
        · rfl
        · simp only
          rw [ih (Table.mk t.active (eraseA s.name t.ldbSegments) (t.segments.add ns)
              t.minMutableSegmentCount t.minCompactionAge t.maxOpenSegmentCount)
            hage (fun s' hs' => hfresh s' (List.mem_cons_of_mem _ hs'))]
          show lookupA (eraseA s.name t.ldbSegments) name = lookupA t.ldbSegments name
          exact lookupA_erase_ne _ _ _ hne

/-- A `Put` whose key already reads back the same bytes from a routed
mutable segment is a pure no-op returning the same table. -/
theorem put_of_ldb_value (env : Env) (t : Table) (key value : Bytes)
    (seg : LDBSegment)
    (h1 : lookupA t.ldbSegments (env.partition key) = some seg)
    (h2 : lookupB seg.data key = some value) :
    t.put env key value = (t, .ok ()) := by
  unfold Table.put Table.get Table.acquireSegment Table.releaseSegment TSeg.get ldbGet
  simp [h1, h2]

/-- A `Put` whose read-through compares equal short-circuits, returning
the state the read left. -/
theorem put_shortcircuit (env : Env) (t : Table) (key value : Bytes)
    (h : ((t.get env key).2 = .error .notFound ∧ value = []) ∨
         ((t.get env key).2 = .ok none ∧ value = []) ∨
         (t.get env key).2 = .ok (some value)) :
    t.put env key value = ((t.get env key).1, .ok ()) := by
  unfold Table.put
  rcases hg : t.get env key with ⟨tg, r⟩
  rw [hg] at h
  simp only at h
  simp only [hg]
  rcases h with ⟨hr, hv⟩ | ⟨hr, hv⟩ | hr
  · subst hr hv
    rfl
  · subst hr hv
    rfl
  · subst hr
    simp

theorem get_result_congr (env : Env) (t t' : Table) (key : Bytes)
    (hl : t'.ldbSegments = t.ldbSegments)
    (ha : (t'.segments.acquire (env.partition key)).2 =
      (t.segments.acquire (env.partition key)).2) :
    (t'.get env key).2 = (t.get env key).2 := by
  unfold Table.get Table.acquireSegment
  rw [hl]
  rcases h1 : lookupA t.ldbSegments (env.partition key) with _ | s
  · simp only [h1]
    rcases h2 : t.segments.acquire (env.partition key) with ⟨ss, r⟩
    rcases h3 : t'.segments.acquire (env.partition key) with ⟨ss', r'⟩
    rw [h2, h3] at ha
    simp only at ha
    subst ha
    rcases r' with e | v
    · rfl
    · rcases v with _ | s
      · rfl
      · rfl
  · simp [h1]

theorem get_segments_shape (env : Env) (t : Table) (key : Bytes) :
    (t.get env key).1.segments = t.segments ∨
    (∃ p, (t.get env key).1.segments =
      { (t.segments.acquire (env.partition key)).1 with permits := p }) := by
  unfold Table.get
  rcases h1 : t.acquireSegment (env.partition key) with ⟨t1, r⟩
  have hshape : t1.segments = t.segments ∨
      (∃ p, t1.segments =
        { (t.segments.acquire (env.partition key)).1 with permits := p }) := by
    unfold Table.acquireSegment at h1
    rcases h2 : lookupA t.ldbSegments (env.partition key) with _ | s
    · rw [h2] at h1
      simp only at h1
      rcases h3 : t.segments.acquire (env.partition key) with ⟨ss, rr⟩
      rw [h3] at h1
      rcases rr with e | v
      · injection h1 with ha hb
        right
        exact ⟨ss.permits, by rw [← ha]⟩
      · rcases v with _ | s
        · injection h1 with ha hb
          right
          exact ⟨ss.permits, by rw [← ha]⟩
        · injection h1 with ha hb
          right
          exact ⟨ss.permits, by rw [← ha]⟩
    · rw [h2] at h1
      injection h1 with ha hb
      left
      rw [← ha]
  simp only [h1]
  rcases r with e | v
  · exact hshape
  · rcases v with _ | s
    · exact hshape
    · rcases s with s | s
      · exact hshape
      · have hfile : t1.segments = (t.segments.acquire (env.partition key)).1 := by
          unfold Table.acquireSegment at h1
          rcases h2 : lookupA t.ldbSegments (env.partition key) with _ | s0
          · rw [h2] at h1
            simp only at h1
            rcases h3 : t.segments.acquire (env.partition key) with ⟨ss, rr⟩
            rw [h3] at h1
            rcases rr with e | v
            · simp at h1
            · rcases v with _ | s1
              · simp at h1
              · injection h1 with ha hb
                rw [← ha]
          · rw [h2] at h1
            injection h1 with ha hb
            simp at hb
        right
        refine ⟨t1.segments.permits - 1, ?_⟩
        show t1.segments.release = _
        rw [hfile]
        rfl

/-- Reading the same key twice in a row returns the same result. -/
theorem get_again (env : Env) (t : Table) (key : Bytes) :
    ((t.get env key).1.get env key).2 = (t.get env key).2 := by
  apply get_result_congr
  · exact (get_preserves_tiers env t key).1
  · rcases get_segments_shape env t key with h | ⟨p, h⟩
    · rw [h]
    · rw [h]
      exact acquire_again t.segments (env.partition key) p

/-- After a successful `CreateSegmentIfNotExists` on a table whose fresh
segments cannot be compacted immediately (positive `MinCompactionAge`),
the returned segment is routed in the writable tier under the requested
name. -/
theorem createSegment_routes (env : Env) (tg : Table) (name : Name) (t2 : Table)
    (seg : LDBSegment) (hage : 0 < tg.minCompactionAge) (hkeys : LdbKeysOk tg)
    (hc : tg.createSegmentIfNotExists env name = (t2, .ok seg)) :
    lookupA t2.ldbSegments name = some seg := by
  unfold Table.createSegmentIfNotExists at hc
  rcases h1 : lookupA tg.ldbSegments name with _ | s
  · rw [h1] at hc
    simp only at hc
    by_cases h2 : tg.segments.containsName name = true
    · simp only [h2, if_true] at hc
      unfold Table.uncompact at hc
      rcases h3 : tg.segments.acquire name with ⟨ss, rr⟩
      rw [h3] at hc
      rcases rr with e | s?
      · exact absurd (congrArg Prod.snd hc) (by simp)
      · simp only at hc
        rcases h4 : env.uncompactSegment s? with e | u
        · rw [h4] at hc
          exact absurd (congrArg Prod.snd hc) (by simp)
        · rw [h4] at hc
          simp only at hc
          injection hc with ha hb
          injection hb with hb
          rw [← ha, ← hb]
          exact lookupA_insert_self _ _ _
    · simp only [h2, if_false, Bool.false_eq_true] at hc
      by_cases h3 : name < tg.active
      · simp only [h3, if_true] at hc
        exact absurd (congrArg Prod.snd hc) (by simp)
      · simp only [h3, if_false] at hc
        rcases h4 : env.openNewLDB name with e | u
        · rw [h4] at hc
          exact absurd (congrArg Prod.snd hc) (by simp)
        · cases u
          rw [h4] at hc
          simp only at hc
          rcases h5 :
              ({ tg with
                  ldbSegments :=
                    insertA name { name := name, data := [], mtime := env.now } tg.ldbSegments,
                  active := name } : Table).compact env with ⟨t3, rc2⟩
          rw [h5] at hc
          rcases rc2 with e | u2
          · exact absurd (congrArg Prod.snd hc) (by simp)
          · cases u2
            injection hc with ha hb
            injection hb with hb
            rw [← ha, ← hb]
            have hfresh : ∀ s' ∈
                ({ tg with
                    ldbSegments :=
                      insertA name { name := name, data := [], mtime := env.now } tg.ldbSegments,
                    active := name } : Table).ldbSegmentSlice.take
                  (({ tg with
                      ldbSegments :=
                        insertA name { name := name, data := [], mtime := env.now } tg.ldbSegments,
                      active := name } : Table).ldbSegmentSlice.length -
                    tg.minMutableSegmentCount),
                s'.name = name → s'.mtime = env.now := by
              intro s' hs' hn
              have hs2 := List.mem_of_mem_take hs'
              unfold Table.ldbSegmentSlice at hs2
              have hs3 := (List.Perm.mem_iff (List.perm_insertionSort nameLe _)).mp hs2
              simp only [List.map_cons, insertA] at hs3
              rcases List.mem_cons.mp hs3 with hs4 | hs4
              · rw [hs4]
              · rcases List.mem_map.mp hs4 with ⟨p, hp1, hp2⟩
                have hp3 : p.1 ≠ name := by
                  have := List.of_mem_filter hp1
                  simpa using this
                have hp4 : s'.name = p.1 := by
                  rw [← hp2]
                  exact hkeys p (List.mem_of_mem_filter hp1)
                rw [hn] at hp4
                exact absurd hp4.symm hp3
            have hkeep := by
              refine compactLoop_keeps_name env name _
                ({ tg with
                    ldbSegments :=
                      insertA name { name := name, data := [], mtime := env.now } tg.ldbSegments,
                    active := name } : Table) hage hfresh
            unfold Table.compact at h5
            by_cases h6 :
                ({ tg with
                    ldbSegments :=
                      insertA name { name := name, data := [], mtime := env.now } tg.ldbSegments,
                    active := name } : Table).ldbSegmentSlice.length < tg.minMutableSegmentCount
            · rw [if_pos h6] at h5
              injection h5 with h5a h5b
              rw [← h5a]
              exact lookupA_insert_self _ _ _
            · rw [if_neg h6] at h5
              rw [h5] at hkeep
              simp only at hkeep
              rw [hkeep]
              exact lookupA_insert_self _ _ _
  · rw [h1] at hc
    injection hc with ha hb
    injection hb with hb
    rw [← ha, ← hb]
    exact h1

/-- After the write path of a successful `Put`, the written key reads back
its value from the routed mutable segment. -/
theorem put_write_value (env : Env) (tg : Table) (key value : Bytes) (t1 : Table)
    (hage : 0 < tg.minCompactionAge) (hkeys : LdbKeysOk tg)
    (hw : (match tg.createSegmentIfNotExists env (env.partition key) with
      | (t2, .error e) => ((t2, .error e) : Table × Except Err Unit)
      | (t2, .ok seg) => (t2.segPut (env.partition key) seg key value, .ok ())) =
        (t1, .ok ())) :
    ∃ segW, lookupA t1.ldbSegments (env.partition key) = some segW ∧
      lookupB segW.data key = some value := by
  rcases hc : tg.createSegmentIfNotExists env (env.partition key) with ⟨t2, rc⟩
  rw [hc] at hw
  rcases rc with e | seg
  · exact absurd (congrArg Prod.snd hw) (by simp)
  · simp only at hw
    injection hw with ha hb
    have hroute := createSegment_routes env tg _ t2 seg hage hkeys hc
    rw [← ha]
    refine ⟨{ seg with data := insertB key value seg.data }, ?_, lookupB_insert_self _ _ _⟩
    unfold Table.segPut
    rw [hroute]
    simp only [if_pos rfl]
    exact lookupA_insert_self _ _ _

/-- C8, amended: provided `MinCompactionAge` is positive (so the segment a
`Put` just created or targeted cannot be compacted away within the same
call) and the writable tier is keyed consistently, a second `Put` of a
bit-equal value after a successful `Put(k,v)` performs no write: it
returns nil, forwards nothing to a mutable segment, and neither creates
nor uncompacts any segment — the writable tier and the universe are left
unchanged. -/
theorem claim_C8_second_put_noop (env : Env) (t : Table) (key value : Bytes)
    (t1 : Table) (hage : 0 < t.minCompactionAge) (hkeys : LdbKeysOk t)
    (hput : t.put env key value = (t1, .ok ())) :
    (t1.put env key value).2 = .ok () ∧
    (t1.put env key value).1.ldbSegments = t1.ldbSegments ∧
    (t1.put env key value).1.segments.segments = t1.segments.segments := by
  have hshort : (((t1.get env key).2 = .error .notFound ∧ value = []) ∨
      ((t1.get env key).2 = .ok none ∧ value = []) ∨
      (t1.get env key).2 = .ok (some value)) →
      (t1.put env key value).2 = .ok () ∧
      (t1.put env key value).1.ldbSegments = t1.ldbSegments ∧
      (t1.put env key value).1.segments.segments = t1.segments.segments := by
    intro cond
    rw [put_shortcircuit env t1 key value cond]
    exact ⟨rfl, (get_preserves_tiers env t1 key).1, (get_preserves_tiers env t1 key).2⟩
  have hgage : 0 < (t.get env key).1.minCompactionAge := by
    rw [get_keeps_minAge]
    exact hage
  have hgkeys : LdbKeysOk (t.get env key).1 := by
    intro p hp
    refine hkeys p ?_
    rw [← (get_preserves_tiers env t key).1]
    exact hp
  have hwritten : ∀ hw : (match (t.get env key).1.createSegmentIfNotExists env
        (env.partition key) with
      | (t2, .error e) => ((t2, .error e) : Table × Except Err Unit)
      | (t2, .ok seg) => (t2.segPut (env.partition key) seg key value, .ok ())) =
        (t1, .ok ()),
      (t1.put env key value).2 = .ok () ∧
      (t1.put env key value).1.ldbSegments = t1.ldbSegments ∧
      (t1.put env key value).1.segments.segments = t1.segments.segments := by
    intro hw
    rcases put_write_value env _ key value t1 hgage hgkeys hw with ⟨segW, hl, hv⟩
    rw [put_of_ldb_value env t1 key value segW hl hv]
    exact ⟨rfl, rfl, rfl⟩
  unfold Table.put at hput
  rcases hg : t.get env key with ⟨tg, r⟩
  rw [hg] at hput
  simp only at hput
  rw [hg] at hgage hgkeys hwritten
  simp only at hgage hgkeys hwritten
  rcases r with e | v
  · simp only at hput
    by_cases he : e = Err.notFound
    · subst he
      rw [if_pos rfl] at hput
      by_cases hv : value = []
      · rw [if_pos hv] at hput
        injection hput with h1a h1b
        have hr2 : (t1.get env key).2 = .error .notFound := by
          rw [← h1a]
          have hga := get_again env t key
          rw [hg] at hga
          simp only at hga
          rw [hga]
        exact hshort (Or.inl ⟨hr2, hv⟩)
      · rw [if_neg hv] at hput
        exact hwritten hput
    · rw [if_neg he] at hput
      exact absurd (congrArg Prod.snd hput) (by simp)
  · rcases v with _ | v
    · simp only at hput
      by_cases hv : value = []
      · rw [if_pos hv] at hput
        injection hput with h1a h1b
        have hr2 : (t1.get env key).2 = .ok none := by
          rw [← h1a]
          have hga := get_again env t key
          rw [hg] at hga
          simp only at hga
          rw [hga]
        exact hshort (Or.inr (Or.inl ⟨hr2, hv⟩))
      · rw [if_neg hv] at hput
        exact hwritten hput
    · simp only at hput
      by_cases hv : v = value
      · rw [if_pos hv] at hput
        injection hput with h1a h1b
        have hr2 : (t1.get env key).2 = .ok (some value) := by
          rw [← h1a]
          have hga := get_again env t key
          rw [hg] at hga
          simp only at hga
          rw [hga, hv]
        exact hshort (Or.inr (Or.inr hr2))
      · rw [if_neg hv] at hput
        exact hwritten hput

theorem claim_C8_witness :
    0 < tableSane.minCompactionAge ∧
    (tableSane.put envW [1] [2]).2 = .ok () ∧
    (((tableSane.put envW [1] [2]).1.put envW [1] [2]).2 = .ok () ∧
      ((tableSane.put envW [1] [2]).1.put envW [1] [2]).1.ldbSegments =
        (tableSane.put envW [1] [2]).1.ldbSegments ∧
      ((tableSane.put envW [1] [2]).1.put envW [1] [2]).1.segments.segments =
        (tableSane.put envW [1] [2]).1.segments.segments) := by
  refine ⟨by decide, by decide, ?_⟩
  exact claim_C8_second_put_noop envW tableSane [1] [2]
    (tableSane.put envW [1] [2]).1 (by decide)
    (by intro p hp; simp [tableSane] at hp) (by decide)

end Ethdb

namespace State

open Ethdb

/-- Account addresses (20-byte values in the source). -/
abbrev Addr := Nat

/-- 32-byte hashes/words (storage keys, storage values, tx hashes). -/
abbrev Hash := Nat

/-- A committed account as stored in the backing account trie, with its
storage trie inlined. -/
structure Account where
  nonce : Nat
  balance : Int
  code : Bytes
  storage : List (Hash × Hash)
deriving DecidableEq, Repr

/-- Modelled from the spec §3/§4.5: a live `stateObject` (state_object.go
is not in the excerpt): balance/nonce/code, the committed storage read at
load time, the staged `dirtyStorage` writes and the lifecycle flags
(`touched` is never consulted by the claims and is omitted; `dirtyCode`
and the code hash likewise only matter to Commit). -/
structure SObj where
  nonce : Nat
  balance : Int
  code : Bytes
  committed : List (Hash × Hash)
  dirtyStorage : List (Hash × Hash)
  suicided : Bool
  deleted : Bool
deriving DecidableEq, Repr

/-- A log entry with the fields `AddLog` stamps. -/
structure SLog where
  txHash : Hash
  blockHash : Hash
  txIndex : Nat
  index : Nat
  payload : Bytes
deriving DecidableEq, Repr

/-- Modelled from the spec §4.4: the journal's change records (journal.go
is not in the excerpt).  `touch` is omitted: no mutation reachable from
the statedb excerpt appends it. -/
inductive Change where
  | createObjectChange (addr : Addr)
  | resetObjectChange (addr : Addr) (prev : SObj)
  | suicideChange (addr : Addr) (prevSuicided : Bool) (prevBalance : Int)
  | balanceChange (addr : Addr) (prev : Int)
  | nonceChange (addr : Addr) (prev : Nat)
  | storageChange (addr : Addr) (key : Hash) (prevValue : Hash)
  | codeChange (addr : Addr) (prevCode : Bytes)
  | refundChange (prev : Nat)
  | addLogChange (txhash : Hash)
  | addPreimageChange (hash : Hash)
deriving DecidableEq, Repr

/-- The `StateDB` state (statedb.go lines 226-251).  The journal is kept
most-recent-first (`append` is cons); `stateObjectsDirty` and the
journal's dirtied-address count are only consulted by Finalise/Commit/Copy
and are omitted. -/
structure StateDB where
  trie : List (Addr × Account)
  stateObjects : List (Addr × SObj)
  refund : Nat
  thash : Hash
  bhash : Hash
  txIndex : Nat
  logs : List (Hash × List SLog)
  logSize : Nat
  preimages : List (Hash × Bytes)
  journal : List Change
  validRevisions : List (Nat × Nat)
  nextRevisionId : Nat
deriving DecidableEq, Repr

/-- Decoding a trie account into a fresh live object. -/
def objOfAccount (acc : Account) : SObj :=
  { nonce := acc.nonce, balance := acc.balance, code := acc.code,
    committed := acc.storage, dirtyStorage := [], suicided := false, deleted := false }

/-- `getStateDB.getStateObject` (statedb.go lines 639-662) as a pure read:
live objects are preferred, a deleted live object hides the trie, and a
miss decodes from the trie.  The source also inserts the freshly decoded
object into the live set; that cache insertion returns the same value to
every later read and is dropped here so that reads stay pure — the
mutators below write their results back explicitly. -/
def getStateObject (db : StateDB) (a : Addr) : Option SObj :=
  match lookupA db.stateObjects a with
  | some o => if o.deleted then none else some o
  | none => (lookupA db.trie a).map objOfAccount

/-- `setStateObject`: install a live object. -/
def setObj (db : StateDB) (a : Addr) (o : SObj) : StateDB :=
  { db with stateObjects := insertA a o db.stateObjects }

/-- `journal.append` (spec §4.4). -/
def appendJ (db : StateDB) (c : Change) : StateDB :=
  { db with journal := c :: db.journal }

/-- The zero-valued object `newObject` builds. -/
def freshObj : SObj :=
  { nonce := 0, balance := 0, code := [], committed := [],
    dirtyStorage := [], suicided := false, deleted := false }

/-- `StateDB.createObject` (statedb.go lines 682-696): journals
`createObjectChange` or `resetObjectChange` according to the previous
object and installs a fresh one; returns the new and previous objects. -/
def createObject (db : StateDB) (a : Addr) : StateDB × SObj × Option SObj :=
  let prev := getStateObject db a
  let db1 :=
    match prev with
    | none => appendJ db (.createObjectChange a)
    | some p => appendJ db (.resetObjectChange a p)
  (setObj db1 a freshObj, freshObj, prev)

/-- `StateDB.CreateAccount` (statedb.go lines 708-713): the previous
balance is carried over into the fresh object (no extra journal entry). -/
def createAccount (db : StateDB) (a : Addr) : StateDB :=
  match createObject db a with
  | (db1, newobj, some p) => setObj db1 a { newobj with balance := p.balance }
  | (db1, _, none) => db1

/-- `StateDB.GetOrNewStateObject` (statedb.go lines 669-678). -/
def getOrNewStateObject (db : StateDB) (a : Addr) : StateDB × SObj :=
  match getStateObject db a with
  | some o => (db, o)
  | none =>
    match createObject db a with
    | (db1, newobj, _) => (db1, newobj)

/-- `stateObject.GetState` (spec §4.5): `dirtyStorage[key]` if present,
else the committed value, defaulting to the zero word. -/
def getStateVal (o : SObj) (k : Hash) : Hash :=
  match lookupA o.dirtyStorage k with
  | some v => v
  | none =>
    match lookupA o.committed k with
    | some v => v
    | none => 0

/-- Modelled from the spec §4.5: the common shape of the journaling
stateObject mutators (state_object.go is not in the excerpt): read or
lazily create the object, journal the prior datum, install the updated
object. -/
def mutateObject (db : StateDB) (a : Addr) (jc : SObj → Change) (f : SObj → SObj) : StateDB :=
  match getOrNewStateObject db a with
  | (db1, o) => setObj (appendJ db1 (jc o)) a (f o)

/-- `AddBalance`: journals the prior balance (spec §4.5). -/
def addBalance (db : StateDB) (a : Addr) (amt : Int) : StateDB :=
  mutateObject db a (fun o => .balanceChange a o.balance)
    (fun o => { o with balance := o.balance + amt })

/-- `SubBalance`: journals the prior balance (spec §4.5). -/
def subBalance (db : StateDB) (a : Addr) (amt : Int) : StateDB :=
  mutateObject db a (fun o => .balanceChange a o.balance)
    (fun o => { o with balance := o.balance - amt })

/-- `SetBalance`: journals the prior balance (spec §4.5). -/
def setBalance (db : StateDB) (a : Addr) (v : Int) : StateDB :=
  mutateObject db a (fun o => .balanceChange a o.balance)
    (fun o => { o with balance := v })

/-- `SetNonce`: journals the prior nonce (spec §4.5). -/
def setNonce (db : StateDB) (a : Addr) (n : Nat) : StateDB :=
  mutateObject db a (fun o => .nonceChange a o.nonce)
    (fun o => { o with nonce := n })

/-- `SetCode`: journals the prior code (spec §4.5). -/
def setCode (db : StateDB) (a : Addr) (c : Bytes) : StateDB :=
  mutateObject db a (fun o => .codeChange a o.code)
    (fun o => { o with code := c })

/-- `SetState`: journals the prior value read through `GetState` and
stages the write in `dirtyStorage` (spec §4.5). -/
def setState (db : StateDB) (a : Addr) (k v : Hash) : StateDB :=
  mutateObject db a (fun o => .storageChange a k (getStateVal o k))
    (fun o => { o with dirtyStorage := insertA k v o.dirtyStorage })

/-- `StateDB.Suicide` (statedb.go lines 598-615): a missing object is a
no-op; otherwise the prior flag and balance are journaled, the object is
marked suicided and its balance zeroed. -/
def suicide (db : StateDB) (a : Addr) : StateDB :=
  match getStateObject db a with
  | none => db
  | some o =>
    setObj (appendJ db (.suicideChange a o.suicided o.balance)) a
      { o with suicided := true, balance := 0 }

/-- The logs recorded under a transaction hash (`GetLogs`, statedb.go
line 301; a missing entry reads as the empty slice). -/
def obsLogs (db : StateDB) (h : Hash) : List SLog :=
  (lookupA db.logs h).getD []

/-- `StateDB.AddLog` (statedb.go lines 290-299): journal, stamp the log
with the current tx/block context and the running log index, append. -/
def addLog (db : StateDB) (payload : Bytes) : StateDB :=
  let db1 := appendJ db (.addLogChange db.thash)
  let l : SLog :=
    { txHash := db1.thash, blockHash := db1.bhash, txIndex := db1.txIndex,
      index := db1.logSize, payload := payload }
  { db1 with logs := insertA db1.thash (obsLogs db1 db1.thash ++ [l]) db1.logs,
             logSize := db1.logSize + 1 }

/-- `StateDB.AddPreimage` (statedb.go lines 314-321): only an absent hash
is journaled and recorded. -/
def addPreimage (db : StateDB) (h : Hash) (p : Bytes) : StateDB :=
  match lookupA db.preimages h with
  | some _ => db
  | none =>
    let db1 := appendJ db (.addPreimageChange h)
    { db1 with preimages := insertA h p db1.preimages }

/-- `StateDB.AddRefund` (statedb.go lines 329-332). -/
def addRefund (db : StateDB) (gas : Nat) : StateDB :=
  let db1 := appendJ db (.refundChange db.refund)
  { db1 with refund := db1.refund + gas }

/-- `StateDB.SubRefund` (statedb.go lines 336-342): the journal entry is
appended before the underflow check; an underflow panics (`none`). -/
def subRefund (db : StateDB) (gas : Nat) : Option StateDB :=
  let db1 := appendJ db (.refundChange db.refund)
  if gas > db1.refund then none else some { db1 with refund := db1.refund - gas }

/-- One state mutation of the claims' "any sequence of mutations". -/
inductive Op where
  | addBalance (a : Addr) (amt : Int)
  | subBalance (a : Addr) (amt : Int)
  | setBalance (a : Addr) (v : Int)
  | setNonce (a : Addr) (n : Nat)
  | setCode (a : Addr) (c : Bytes)
  | setState (a : Addr) (k v : Hash)
  | addRefund (g : Nat)
  | subRefund (g : Nat)
  | addLog (payload : Bytes)
  | addPreimage (h : Hash) (p : Bytes)
  | suicide (a : Addr)
  | createAccount (a : Addr)

/-- Run one mutation; `none` is a panic (only `SubRefund` can panic). -/
def stepOp (db : StateDB) : Op → Option StateDB
  | .addBalance a amt => some (addBalance db a amt)
  | .subBalance a amt => some (subBalance db a amt)
  | .setBalance a v => some (setBalance db a v)
  | .setNonce a n => some (setNonce db a n)
  | .setCode a c => some (setCode db a c)
  | .setState a k v => some (setState db a k v)
  | .addRefund g => some (addRefund db g)
  | .subRefund g => subRefund db g
  | .addLog payload => some (addLog db payload)
  | .addPreimage h p => some (addPreimage db h p)
  | .suicide a => some (suicide db a)
  | .createAccount a => some (createAccount db a)

/-- Run a sequence of mutations; a panic aborts the run. -/
def run : List Op → StateDB → Option StateDB
  | [], db => some db
  | op :: rest, db =>
    match stepOp db op with
    | none => none
    | some db1 => run rest db1

/-- Modelled from the spec §4.4: how each change record reverses itself
against the StateDB (journal.go is not in the excerpt): createObject
removes from the live set, resetObject restores the previous object,
suicide/balance/nonce/code restore the captured fields, storage restores
the slot in `dirtyStorage`, refund restores the counter, addLog pops the
last log of that tx hash and decrements `logSize`, addPreimage removes
the preimage. -/
def applyRevert : Change → StateDB → StateDB
  | .createObjectChange a, db => { db with stateObjects := eraseA a db.stateObjects }
  | .resetObjectChange a prev, db => setObj db a prev
  | .suicideChange a ps pb, db =>
    match getStateObject db a with
    | none => db
    | some o => setObj db a { o with suicided := ps, balance := pb }
  | .balanceChange a prev, db =>
    match getStateObject db a with
    | none => db
    | some o => setObj db a { o with balance := prev }
  | .nonceChange a prev, db =>
    match getStateObject db a with
    | none => db
    | some o => setObj db a { o with nonce := prev }
  | .storageChange a k prev, db =>
    match getStateObject db a with
    | none => db
    | some o => setObj db a { o with dirtyStorage := insertA k prev o.dirtyStorage }
  | .codeChange a prev, db =>
    match getStateObject db a with
    | none => db
    | some o => setObj db a { o with code := prev }
  | .refundChange prev, db => { db with refund := prev }
  | .addLogChange h, db =>
    { db with logs := insertA h (obsLogs db h).dropLast db.logs,
              logSize := db.logSize - 1 }
  | .addPreimageChange h, db => { db with preimages := eraseA h db.preimages }

/-- Pop and reverse up to `k` journal entries (spec §4.4: `revert(db,
snapshot)` pops entries back to the snapshot length). -/
def revertLoop : Nat → StateDB → StateDB
  | 0, db => db
  | k + 1, db =>
    match db.journal with
    | [] => db
    | c :: rest => revertLoop k (applyRevert c { db with journal := rest })

/-- `journal.revert(db, snapshot)`. -/
def journalRevert (db : StateDB) (snapshot : Nat) : StateDB :=
  revertLoop (db.journal.length - snapshot) db

/-- `StateDB.Snapshot` (statedb.go lines 784-789): returns the fresh id
and the state with the revision recorded. -/
def snapshot (db : StateDB) : Nat × StateDB :=
  (db.nextRevisionId,
   { db with
      nextRevisionId := db.nextRevisionId + 1,
      validRevisions := db.validRevisions ++ [(db.nextRevisionId, db.journal.length)] })

/-- `StateDB.RevertToSnapshot` (statedb.go lines 792-805).  Go binary
searches the id-ascending `validRevisions`; the linear first-index search
used here agrees with it on sorted input.  An unknown id panics
(`none`). -/
def revertToSnapshot (db : StateDB) (revid : Nat) : Option StateDB :=
  match db.validRevisions.findIdx? (fun r => revid ≤ r.1) with
  | none => none
  | some idx =>
    match db.validRevisions[idx]? with
    | none => none
    | some r =>
      if r.1 = revid then
        some { journalRevert db r.2 with validRevisions := db.validRevisions.take idx }
      else none

/-- `GetBalance` as observed through the pure read. -/
def obsBalance (db : StateDB) (a : Addr) : Int :=
  match getStateObject db a with
  | some o => o.balance
  | none => 0

/-- `GetNonce` as observed through the pure read. -/
def obsNonce (db : StateDB) (a : Addr) : Nat :=
  match getStateObject db a with
  | some o => o.nonce
  | none => 0

/-- `GetCode` as observed through the pure read. -/
def obsCode (db : StateDB) (a : Addr) : Bytes :=
  match getStateObject db a with
  | some o => o.code
  | none => []

/-- `GetState` as observed through the pure read. -/
def obsState (db : StateDB) (a : Addr) (k : Hash) : Hash :=
  match getStateObject db a with
  | some o => getStateVal o k
  | none => 0

/-- One recorded preimage (`Preimages()[h]`). -/
def obsPreimage (db : StateDB) (h : Hash) : Option Bytes :=
  lookupA db.preimages h

/-- Well-formedness: a deleted live object's account is gone from the
trie (deleteStateObject removes both), and every recorded revision id is
below the id counter. -/
def WF (db : StateDB) : Prop :=
  (∀ p ∈ db.stateObjects, p.2.deleted = true → lookupA db.trie p.1 = none) ∧
  (∀ r ∈ db.validRevisions, r.1 < db.nextRevisionId)

/-- Observational equivalence of optional objects: the fields the
getters consult agree (the `deleted` flag is not observable through
`getStateObject`, which never returns a deleted object). -/
def ObjEquiv : Option SObj → Option SObj → Prop
  | none, none => True
  | some o1, some o2 =>
    o1.balance = o2.balance ∧ o1.nonce = o2.nonce ∧ o1.code = o2.code ∧
    o1.suicided = o2.suicided ∧ ∀ k, getStateVal o1 k = getStateVal o2 k
  | _, _ => False

theorem objEquiv_refl : ∀ x, ObjEquiv x x
  | none => trivial
  | some _ => ⟨rfl, rfl, rfl, rfl, fun _ => rfl⟩

theorem objEquiv_trans : ∀ {x y z : Option SObj}, ObjEquiv x y → ObjEquiv y z → ObjEquiv x z
  | none, none, none, _, _ => trivial
  | some _, some _, some _, ⟨h1, h2, h3, h4, h5⟩, ⟨g1, g2, g3, g4, g5⟩ =>
    ⟨h1.trans g1, h2.trans g2, h3.trans g3, h4.trans g4, fun k => (h5 k).trans (g5 k)⟩

/-- Observational equivalence of two StateDBs: equal backing trie and
bookkeeping, and pointwise equivalent observations. -/
structure SEquiv (s t : StateDB) : Prop where
  trie : s.trie = t.trie
  objs : ∀ a, ObjEquiv (getStateObject s a) (getStateObject t a)
  refund : s.refund = t.refund
  thash : s.thash = t.thash
  bhash : s.bhash = t.bhash
  txIndex : s.txIndex = t.txIndex
  logs : ∀ h, obsLogs s h = obsLogs t h
  logSize : s.logSize = t.logSize
  preimages : ∀ h, lookupA s.preimages h = lookupA t.preimages h
  journal : s.journal = t.journal
  validRevisions : s.validRevisions = t.validRevisions
  nextRevisionId : s.nextRevisionId = t.nextRevisionId

theorem sEquiv_refl (s : StateDB) : SEquiv s s :=
  ⟨rfl, fun _ => objEquiv_refl _, rfl, rfl, rfl, rfl, fun _ => rfl, rfl,
   fun _ => rfl, rfl, rfl, rfl⟩

theorem sEquiv_trans {s t u : StateDB} (h1 : SEquiv s t) (h2 : SEquiv t u) : SEquiv s u :=
  ⟨h1.trie.trans h2.trie, fun a => objEquiv_trans (h1.objs a) (h2.objs a),
   h1.refund.trans h2.refund, h1.thash.trans h2.thash, h1.bhash.trans h2.bhash,
   h1.txIndex.trans h2.txIndex, fun h => (h1.logs h).trans (h2.logs h),
   h1.logSize.trans h2.logSize, fun h => (h1.preimages h).trans (h2.preimages h),
   h1.journal.trans h2.journal, h1.validRevisions.trans h2.validRevisions,
   h1.nextRevisionId.trans h2.nextRevisionId⟩

theorem getStateObject_deleted_false {db : StateDB} {a : Addr} {o : SObj}
    (h : getStateObject db a = some o) : o.deleted = false := by
  unfold getStateObject at h
  rcases hl : lookupA db.stateObjects a with _ | o'
  · rw [hl] at h
    simp only at h
    rcases ht : lookupA db.trie a with _ | acc
    · rw [ht] at h
      simp at h
    · rw [ht] at h
      simp only [Option.map_some'] at h
      cases h
      rfl
  · rw [hl] at h
    by_cases hd : o'.deleted = true
    · simp [hd] at h
    · simp only [Bool.not_eq_true] at hd
      simp only [hd, Bool.false_eq_true, if_false, Option.some.injEq] at h
      cases h
      exact hd

theorem getStateObject_setObj_self {o : SObj} (db : StateDB) (a : Addr)
    (h : o.deleted = false) : getStateObject (setObj db a o) a = some o := by
  show (match lookupA (insertA a o db.stateObjects) a with
    | some o => if o.deleted then none else some o
    | none => (lookupA db.trie a).map objOfAccount) = some o
  rw [lookupA_insert_self]
  simp [h]

theorem getStateObject_setObj_ne (db : StateDB) (a b : Addr) (o : SObj)
    (h : a ≠ b) : getStateObject (setObj db a o) b = getStateObject db b := by
  show (match lookupA (insertA a o db.stateObjects) b with
    | some o => if o.deleted then none else some o
    | none => (lookupA db.trie b).map objOfAccount) = _
  rw [lookupA_insert_ne _ _ _ _ h]
  rfl

theorem getStateObject_erase_ne (db : StateDB) (a b : Addr)
    (h : a ≠ b) :
    getStateObject { db with stateObjects := eraseA a db.stateObjects } b =
      getStateObject db b := by
  show (match lookupA (eraseA a db.stateObjects) b with
    | some o => if o.deleted then none else some o
    | none => (lookupA db.trie b).map objOfAccount) = _
  rw [lookupA_erase_ne _ _ _ h]
  rfl

theorem getStateObject_journal (db : StateDB) (j : List Change) (a : Addr) :
    getStateObject { db with journal := j } a = getStateObject db a := rfl

/-- Claim C10: AddPreimage is idempotent per hash — once a hash is
recorded, a later AddPreimage for the same hash leaves the state
bit-identical: no journal entry, no map write, even if the offered
preimage differs (statedb.go lines 314-321 short-circuit before the
journal append). -/
theorem claim_C10_addPreimage_idempotent {db : StateDB} {h : Hash} {p₀ : Bytes} (p : Bytes)
    (hp : lookupA db.preimages h = some p₀) : addPreimage db h p = db := by
  unfold addPreimage
  rw [hp]

/-- A state that already holds a preimage for hash 7. -/
def dbPre : StateDB :=
  ⟨[], [], 0, 0, 0, 0, [], 0, [(7, [1, 2])], [], [], 0⟩

theorem claim_C10_witness :
    lookupA dbPre.preimages 7 = some ([1, 2] : Bytes) ∧ addPreimage dbPre 7 [9] = dbPre :=
  ⟨by decide, @claim_C10_addPreimage_idempotent dbPre 7 [1, 2] [9] (by decide)⟩

/-- What every mutation preserves: the backing trie, the transaction
context, the revision bookkeeping; the journal only grows. -/
structure StepInv (db dbA : StateDB) : Prop where
  trie : dbA.trie = db.trie
  thash : dbA.thash = db.thash
  bhash : dbA.bhash = db.bhash
  txIndex : dbA.txIndex = db.txIndex
  validRevisions : dbA.validRevisions = db.validRevisions
  nextRevisionId : dbA.nextRevisionId = db.nextRevisionId
  jlen : db.journal.length ≤ dbA.journal.length

theorem stepInv_refl (db : StateDB) : StepInv db db :=
  ⟨rfl, rfl, rfl, rfl, rfl, rfl, Nat.le_refl _⟩

theorem stepInv_trans {a b c : StateDB} (h1 : StepInv a b) (h2 : StepInv b c) : StepInv a c :=
  ⟨h2.trie.trans h1.trie, h2.thash.trans h1.thash, h2.bhash.trans h1.bhash,
   h2.txIndex.trans h1.txIndex, h2.validRevisions.trans h1.validRevisions,
   h2.nextRevisionId.trans h1.nextRevisionId, Nat.le_trans h1.jlen h2.jlen⟩

theorem getStateObject_setObj_self_deleted {o : SObj} (db : StateDB) (a : Addr)
    (h : o.deleted = true) : getStateObject (setObj db a o) a = none := by
  show (match lookupA (insertA a o db.stateObjects) a with
    | some o => if o.deleted then none else some o
    | none => (lookupA db.trie a).map objOfAccount) = none
  rw [lookupA_insert_self]
  simp [h]

theorem getStateObject_erase_self (db : StateDB) (a : Addr) :
    getStateObject { db with stateObjects := eraseA a db.stateObjects } a =
      (lookupA db.trie a).map objOfAccount := by
  show (match lookupA (eraseA a db.stateObjects) a with
    | some o => if o.deleted then none else some o
    | none => (lookupA db.trie a).map objOfAccount) = _
  rw [lookupA_erase_self]

theorem trie_none_of_getStateObject_none {db : StateDB} {a : Addr}
    (hwf : WF db) (h : getStateObject db a = none) :
    (lookupA db.trie a).map objOfAccount = none := by
  unfold getStateObject at h
  rcases hl : lookupA db.stateObjects a with _ | o'
  · rwa [hl] at h
  · rw [hl] at h
    by_cases hd : o'.deleted = true
    · rw [hwf.1 (a, o') (lookupA_mem hl) hd]
      rfl
    · simp only [Bool.not_eq_true] at hd
      simp [hd] at h

theorem getStateVal_insert (o : SObj) (k v k' : Hash) :
    getStateVal { o with dirtyStorage := insertA k v o.dirtyStorage } k' =
      if k' = k then v else getStateVal o k' := by
  unfold getStateVal
  by_cases hk : k' = k
  · subst hk
    rw [lookupA_insert_self]
    simp
  · rw [lookupA_insert_ne _ _ _ _ (fun he => hk he.symm)]
    simp [hk]

theorem sEquiv_setObj {s t : StateDB} (h : SEquiv s t) (a : Addr) (o1 o2 : SObj)
    (ho : ObjEquiv (some o1) (some o2)) (hd : o1.deleted = o2.deleted) :
    SEquiv (setObj s a o1) (setObj t a o2) := by
  refine ⟨h.trie, ?_, h.refund, h.thash, h.bhash, h.txIndex, h.logs, h.logSize,
    h.preimages, h.journal, h.validRevisions, h.nextRevisionId⟩
  intro b
  by_cases hb : b = a
  · subst hb
    by_cases hdel : o1.deleted = true
    · rw [getStateObject_setObj_self_deleted _ _ hdel,
        getStateObject_setObj_self_deleted _ _ (hd ▸ hdel)]
      trivial
    · simp only [Bool.not_eq_true] at hdel
      rw [getStateObject_setObj_self _ _ hdel, getStateObject_setObj_self _ _ (hd ▸ hdel)]
      exact ho
  · rw [getStateObject_setObj_ne _ _ _ _ (fun he => hb he.symm),
      getStateObject_setObj_ne _ _ _ _ (fun he => hb he.symm)]
    exact h.objs b

theorem sEquiv_setJournal {s t : StateDB} (h : SEquiv s t) (j : List Change) :
    SEquiv { s with journal := j } { t with journal := j } :=
  ⟨h.trie, h.objs, h.refund, h.thash, h.bhash, h.txIndex, h.logs, h.logSize,
   h.preimages, rfl, h.validRevisions, h.nextRevisionId⟩

/-- Reverting the same change on observationally equivalent states
yields observationally equivalent states. -/
theorem applyRevert_congr (c : Change) {s t : StateDB} (h : SEquiv s t) :
    SEquiv (applyRevert c s) (applyRevert c t) := by
  cases c with
  | createObjectChange a =>
    show SEquiv { s with stateObjects := eraseA a s.stateObjects }
      { t with stateObjects := eraseA a t.stateObjects }
    refine ⟨h.trie, ?_, h.refund, h.thash, h.bhash, h.txIndex, h.logs, h.logSize,
      h.preimages, h.journal, h.validRevisions, h.nextRevisionId⟩
    intro b
    by_cases hb : b = a
    · subst hb
      rw [getStateObject_erase_self, getStateObject_erase_self, h.trie]
      exact objEquiv_refl _
    · rw [getStateObject_erase_ne _ _ _ (fun he => hb he.symm),
        getStateObject_erase_ne _ _ _ (fun he => hb he.symm)]
      exact h.objs b
  | resetObjectChange a prev =>
    show SEquiv (setObj s a prev) (setObj t a prev)
    exact sEquiv_setObj h a prev prev (objEquiv_refl _) rfl
  | suicideChange a ps pb =>
    have hob := h.objs a
    rcases hs : getStateObject s a with _ | o1 <;> rcases ht : getStateObject t a with _ | o2 <;>
      rw [hs, ht] at hob
    · have es : applyRevert (.suicideChange a ps pb) s = s := by
        simp only [applyRevert]; rw [hs]
      have et : applyRevert (.suicideChange a ps pb) t = t := by
        simp only [applyRevert]; rw [ht]
      rw [es, et]; exact h
    · exact hob.elim
    · exact hob.elim
    · have es : applyRevert (.suicideChange a ps pb) s =
          setObj s a { o1 with suicided := ps, balance := pb } := by
        simp only [applyRevert]; rw [hs]
      have et : applyRevert (.suicideChange a ps pb) t =
          setObj t a { o2 with suicided := ps, balance := pb } := by
        simp only [applyRevert]; rw [ht]
      rw [es, et]
      refine sEquiv_setObj h a _ _ ⟨rfl, hob.2.1, hob.2.2.1, rfl, fun k => hob.2.2.2.2 k⟩ ?_
      show o1.deleted = o2.deleted
      rw [getStateObject_deleted_false hs, getStateObject_deleted_false ht]
  | balanceChange a prev =>
    have hob := h.objs a
    rcases hs : getStateObject s a with _ | o1 <;> rcases ht : getStateObject t a with _ | o2 <;>
      rw [hs, ht] at hob
    · have es : applyRevert (.balanceChange a prev) s = s := by
        simp only [applyRevert]; rw [hs]
      have et : applyRevert (.balanceChange a prev) t = t := by
        simp only [applyRevert]; rw [ht]
      rw [es, et]; exact h
    · exact hob.elim
    · exact hob.elim
    · have es : applyRevert (.balanceChange a prev) s = setObj s a { o1 with balance := prev } := by
        simp only [applyRevert]; rw [hs]
      have et : applyRevert (.balanceChange a prev) t = setObj t a { o2 with balance := prev } := by
        simp only [applyRevert]; rw [ht]
      rw [es, et]
      refine sEquiv_setObj h a _ _ ⟨rfl, hob.2.1, hob.2.2.1, hob.2.2.2.1, fun k => hob.2.2.2.2 k⟩ ?_
      show o1.deleted = o2.deleted
      rw [getStateObject_deleted_false hs, getStateObject_deleted_false ht]
  | nonceChange a prev =>
    have hob := h.objs a
    rcases hs : getStateObject s a with _ | o1 <;> rcases ht : getStateObject t a with _ | o2 <;>
      rw [hs, ht] at hob
    · have es : applyRevert (.nonceChange a prev) s = s := by
        simp only [applyRevert]; rw [hs]
      have et : applyRevert (.nonceChange a prev) t = t := by
        simp only [applyRevert]; rw [ht]
      rw [es, et]; exact h
    · exact hob.elim
    · exact hob.elim
    · have es : applyRevert (.nonceChange a prev) s = setObj s a { o1 with nonce := prev } := by
        simp only [applyRevert]; rw [hs]
      have et : applyRevert (.nonceChange a prev) t = setObj t a { o2 with nonce := prev } := by
        simp only [applyRevert]; rw [ht]
      rw [es, et]
      refine sEquiv_setObj h a _ _ ⟨hob.1, rfl, hob.2.2.1, hob.2.2.2.1, fun k => hob.2.2.2.2 k⟩ ?_
      show o1.deleted = o2.deleted
      rw [getStateObject_deleted_false hs, getStateObject_deleted_false ht]
  | storageChange a k prev =>
    have hob := h.objs a
    rcases hs : getStateObject s a with _ | o1 <;> rcases ht : getStateObject t a with _ | o2 <;>
      rw [hs, ht] at hob
    · have es : applyRevert (.storageChange a k prev) s = s := by
        simp only [applyRevert]; rw [hs]
      have et : applyRevert (.storageChange a k prev) t = t := by
        simp only [applyRevert]; rw [ht]
      rw [es, et]; exact h
    · exact hob.elim
    · exact hob.elim
    · have es : applyRevert (.storageChange a k prev) s =
          setObj s a { o1 with dirtyStorage := insertA k prev o1.dirtyStorage } := by
        simp only [applyRevert]; rw [hs]
      have et : applyRevert (.storageChange a k prev) t =
          setObj t a { o2 with dirtyStorage := insertA k prev o2.dirtyStorage } := by
        simp only [applyRevert]; rw [ht]
      rw [es, et]
      refine sEquiv_setObj h a _ _ ⟨hob.1, hob.2.1, hob.2.2.1, hob.2.2.2.1, fun k' => ?_⟩ ?_
      · rw [getStateVal_insert, getStateVal_insert]
        by_cases hk : k' = k
        · simp [hk]
        · simp only [hk, if_false]
          exact hob.2.2.2.2 k'
      · show o1.deleted = o2.deleted
        rw [getStateObject_deleted_false hs, getStateObject_deleted_false ht]
  | codeChange a prev =>
    have hob := h.objs a
    rcases hs : getStateObject s a with _ | o1 <;> rcases ht : getStateObject t a with _ | o2 <;>
      rw [hs, ht] at hob
    · have es : applyRevert (.codeChange a prev) s = s := by
        simp only [applyRevert]; rw [hs]
      have et : applyRevert (.codeChange a prev) t = t := by
        simp only [applyRevert]; rw [ht]
      rw [es, et]; exact h
    · exact hob.elim
    · exact hob.elim
    · have es : applyRevert (.codeChange a prev) s = setObj s a { o1 with code := prev } := by
        simp only [applyRevert]; rw [hs]
      have et : applyRevert (.codeChange a prev) t = setObj t a { o2 with code := prev } := by
        simp only [applyRevert]; rw [ht]
      rw [es, et]
      refine sEquiv_setObj h a _ _ ⟨hob.1, hob.2.1, rfl, hob.2.2.2.1, fun k => hob.2.2.2.2 k⟩ ?_
      show o1.deleted = o2.deleted
      rw [getStateObject_deleted_false hs, getStateObject_deleted_false ht]
  | refundChange prev =>
    exact ⟨h.trie, h.objs, rfl, h.thash, h.bhash, h.txIndex, h.logs, h.logSize,
      h.preimages, h.journal, h.validRevisions, h.nextRevisionId⟩
  | addLogChange hh =>
    refine ⟨h.trie, h.objs, h.refund, h.thash, h.bhash, h.txIndex, ?_, ?_,
      h.preimages, h.journal, h.validRevisions, h.nextRevisionId⟩
    · intro h'
      show (lookupA (insertA hh (obsLogs s hh).dropLast s.logs) h').getD [] =
        (lookupA (insertA hh (obsLogs t hh).dropLast t.logs) h').getD []
      by_cases hb : h' = hh
      · subst hb
        rw [lookupA_insert_self, lookupA_insert_self, h.logs h']
      · rw [lookupA_insert_ne _ _ _ _ (fun he => hb he.symm),
          lookupA_insert_ne _ _ _ _ (fun he => hb he.symm)]
        exact h.logs h'
    · show s.logSize - 1 = t.logSize - 1
      rw [h.logSize]
  | addPreimageChange hh =>
    refine ⟨h.trie, h.objs, h.refund, h.thash, h.bhash, h.txIndex, h.logs, h.logSize,
      ?_, h.journal, h.validRevisions, h.nextRevisionId⟩
    intro h'
    show lookupA (eraseA hh s.preimages) h' = lookupA (eraseA hh t.preimages) h'
    by_cases hb : h' = hh
    · subst hb
      rw [lookupA_erase_self, lookupA_erase_self]
    · rw [lookupA_erase_ne _ _ _ (fun he => hb he.symm),
        lookupA_erase_ne _ _ _ (fun he => hb he.symm)]
      exact h.preimages h'

theorem revertLoop_nil {db : StateDB} (k : Nat) (h : db.journal = []) :
    revertLoop k db = db := by
  cases k with
  | zero => rfl
  | succ m =>
    show (match db.journal with
      | [] => db
      | c :: rest => revertLoop m (applyRevert c { db with journal := rest })) = db
    rw [h]

theorem revertLoop_cons {db : StateDB} {c : Change} {rest : List Change} (k : Nat)
    (h : db.journal = c :: rest) :
    revertLoop (k + 1) db = revertLoop k (applyRevert c { db with journal := rest }) := by
  show (match db.journal with
    | [] => db
    | c :: rest => revertLoop k (applyRevert c { db with journal := rest })) = _
  rw [h]

/-- Popping `k + m` journal entries pops the newest `k` first. -/
theorem revertLoop_add (m : Nat) : ∀ (k : Nat) (db : StateDB),
    revertLoop (k + m) db = revertLoop m (revertLoop k db) := by
  intro k
  induction k with
  | zero =>
    intro db
    rw [Nat.zero_add]
    rfl
  | succ n ih =>
    intro db
    rcases hj : db.journal with _ | ⟨c, rest⟩
    · rw [revertLoop_nil _ hj, revertLoop_nil _ hj, revertLoop_nil _ hj]
    · have hs : n + 1 + m = (n + m) + 1 := by omega
      rw [hs, revertLoop_cons _ hj, revertLoop_cons _ hj, ih]

theorem revertLoop_congr (k : Nat) : ∀ {s t : StateDB}, SEquiv s t →
    SEquiv (revertLoop k s) (revertLoop k t) := by
  induction k with
  | zero => intro s t h; exact h
  | succ n ih =>
    intro s t h
    rcases hj : s.journal with _ | ⟨c, rest⟩
    · have hj' : t.journal = [] := h.journal ▸ hj
      rw [revertLoop_nil _ hj, revertLoop_nil _ hj']
      exact h
    · have hj' : t.journal = c :: rest := h.journal ▸ hj
      rw [revertLoop_cons _ hj, revertLoop_cons _ hj']
      exact ih (applyRevert_congr c (sEquiv_setJournal h rest))

theorem getStateObject_appendJ (db : StateDB) (c : Change) (a : Addr) :
    getStateObject (appendJ db c) a = getStateObject db a := rfl

/-- `getStateObject` as a function of the two components it reads, for
reasoning about states given by compound record updates. -/
def gso (so : List (Addr × SObj)) (tr : List (Addr × Account)) (a : Addr) : Option SObj :=
  match lookupA so a with
  | some o => if o.deleted then none else some o
  | none => (lookupA tr a).map objOfAccount

theorem getStateObject_eq_gso (db : StateDB) (a : Addr) :
    getStateObject db a = gso db.stateObjects db.trie a := rfl

theorem gso_insert_self (so : List (Addr × SObj)) (tr : List (Addr × Account))
    (a : Addr) (o : SObj) (h : o.deleted = false) :
    gso (insertA a o so) tr a = some o := by
  unfold gso
  rw [lookupA_insert_self]
  simp [h]

theorem gso_insert_ne (so : List (Addr × SObj)) (tr : List (Addr × Account))
    (a b : Addr) (o : SObj) (h : a ≠ b) :
    gso (insertA a o so) tr b = gso so tr b := by
  unfold gso
  rw [lookupA_insert_ne _ _ _ _ h]

theorem gso_erase_self (so : List (Addr × SObj)) (tr : List (Addr × Account)) (a : Addr) :
    gso (eraseA a so) tr a = (lookupA tr a).map objOfAccount := by
  unfold gso
  rw [lookupA_erase_self]

theorem gso_erase_ne (so : List (Addr × SObj)) (tr : List (Addr × Account))
    (a b : Addr) (h : a ≠ b) :
    gso (eraseA a so) tr b = gso so tr b := by
  unfold gso
  rw [lookupA_erase_ne _ _ _ h]

/-- `getStateVal` as a function of the two lists it reads. -/
def gsv (d c : List (Hash × Hash)) (k : Hash) : Hash :=
  match lookupA d k with
  | some v => v
  | none =>
    match lookupA c k with
    | some v => v
    | none => 0

theorem getStateVal_eq_gsv (o : SObj) (k : Hash) :
    getStateVal o k = gsv o.dirtyStorage o.committed k := rfl

theorem gsv_insert (d c : List (Hash × Hash)) (k v k' : Hash) :
    gsv (insertA k v d) c k' = if k' = k then v else gsv d c k' := by
  unfold gsv
  by_cases hk : k' = k
  · subst hk
    rw [lookupA_insert_self]
    simp
  · rw [lookupA_insert_ne _ _ _ _ (fun he => hk he.symm)]
    simp [hk]

/-- A good mutation step: the frame is preserved, well-formedness is
preserved, and popping the entries it appended restores the observable
state. -/
def GoodStep (db dbA : StateDB) : Prop :=
  StepInv db dbA ∧ WF dbA ∧
  SEquiv (revertLoop (dbA.journal.length - db.journal.length) dbA) db

/-- The journaling mutators all step well: the journaled change, applied
in reverse, restores the observed object (hypothesis `hgood`), and the
update never touches the `deleted` flag (hypothesis `hdel`). -/
theorem mutateObject_good (db : StateDB) (a : Addr) (jc : SObj → Change) (f : SObj → SObj)
    (hwf : WF db)
    (hdel : ∀ o, (f o).deleted = o.deleted)
    (hgood : ∀ (s : StateDB) (o : SObj), o.deleted = false →
      getStateObject s a = some (f o) →
      ∃ o2, applyRevert (jc o) s = setObj s a o2 ∧ o2.deleted = false ∧
        ObjEquiv (some o2) (some o)) :
    GoodStep db (mutateObject db a jc f) := by
  rcases hget : getStateObject db a with _ | o
  · -- the object is created lazily: two journal entries
    have hmu : mutateObject db a jc f =
        setObj (appendJ (setObj (appendJ db (.createObjectChange a)) a freshObj)
          (jc freshObj)) a (f freshObj) := by
      simp only [mutateObject, getOrNewStateObject, createObject, hget]
    rw [hmu]
    have hdelf : (f freshObj).deleted = false := by rw [hdel]; rfl
    refine ⟨⟨rfl, rfl, rfl, rfl, rfl, rfl, ?_⟩, ⟨?_, hwf.2⟩, ?_⟩
    · show db.journal.length ≤ (jc freshObj :: Change.createObjectChange a :: db.journal).length
      simp only [List.length_cons]
      omega
    · intro p hp hpd
      rcases mem_of_mem_insertA hp with h1 | h1
      · rw [h1] at hpd
        rw [hdelf] at hpd
        cases hpd
      · rcases mem_of_mem_insertA h1 with h2 | h2
        · rw [h2] at hpd
          cases hpd
        · exact hwf.1 p h2 hpd
    · have hdiff : (setObj (appendJ (setObj (appendJ db (.createObjectChange a)) a freshObj)
          (jc freshObj)) a (f freshObj)).journal.length - db.journal.length = 2 := by
        show (jc freshObj :: Change.createObjectChange a :: db.journal).length -
          db.journal.length = 2
        simp only [List.length_cons]
        omega
      rw [hdiff]
      have hj1 : (setObj (appendJ (setObj (appendJ db (.createObjectChange a)) a freshObj)
          (jc freshObj)) a (f freshObj)).journal =
          jc freshObj :: (Change.createObjectChange a :: db.journal) := rfl
      rw [show (2 : Nat) = 1 + 1 from rfl, revertLoop_cons 1 hj1]
      have hs1 : getStateObject { (setObj (appendJ (setObj (appendJ db (.createObjectChange a))
          a freshObj) (jc freshObj)) a (f freshObj)) with
            journal := Change.createObjectChange a :: db.journal } a = some (f freshObj) := by
        rw [getStateObject_journal, getStateObject_setObj_self _ _ hdelf]
      obtain ⟨o2, he, ho2d, ho2⟩ := hgood _ freshObj rfl hs1
      rw [he]
      have hj2 : (setObj ({ (setObj (appendJ (setObj (appendJ db (.createObjectChange a))
          a freshObj) (jc freshObj)) a (f freshObj)) with
            journal := Change.createObjectChange a :: db.journal }) a o2).journal =
          Change.createObjectChange a :: db.journal := rfl
      rw [revertLoop_cons 0 hj2]
      show SEquiv (applyRevert (.createObjectChange a) _) db
      simp only [applyRevert]
      refine ⟨rfl, ?_, rfl, rfl, rfl, rfl, fun _ => rfl, rfl, fun _ => rfl, rfl, rfl, rfl⟩
      intro b
      show ObjEquiv (gso (eraseA a (insertA a o2 (insertA a (f freshObj)
        (insertA a freshObj db.stateObjects)))) db.trie b) (gso db.stateObjects db.trie b)
      have hget' : gso db.stateObjects db.trie a = none := hget
      by_cases hb : b = a
      · subst hb
        rw [gso_erase_self, hget']
        rw [trie_none_of_getStateObject_none hwf hget]
        trivial
      · have hab : a ≠ b := fun he' => hb he'.symm
        rw [gso_erase_ne _ _ _ _ hab, gso_insert_ne _ _ _ _ _ hab,
          gso_insert_ne _ _ _ _ _ hab, gso_insert_ne _ _ _ _ _ hab]
        exact objEquiv_refl _
  · -- the object exists: a single journal entry
    have hmu : mutateObject db a jc f = setObj (appendJ db (jc o)) a (f o) := by
      simp only [mutateObject, getOrNewStateObject, hget]
    rw [hmu]
    have hdo : o.deleted = false := getStateObject_deleted_false hget
    have hdelf : (f o).deleted = false := by rw [hdel]; exact hdo
    refine ⟨⟨rfl, rfl, rfl, rfl, rfl, rfl, ?_⟩, ⟨?_, hwf.2⟩, ?_⟩
    · show db.journal.length ≤ (jc o :: db.journal).length
      simp only [List.length_cons]
      omega
    · intro p hp hpd
      rcases mem_of_mem_insertA hp with h1 | h1
      · rw [h1] at hpd
        rw [hdelf] at hpd
        cases hpd
      · exact hwf.1 p h1 hpd
    · have hdiff : (setObj (appendJ db (jc o)) a (f o)).journal.length -
          db.journal.length = 1 := by
        show (jc o :: db.journal).length - db.journal.length = 1
        simp only [List.length_cons]
        omega
      rw [hdiff]
      have hj1 : (setObj (appendJ db (jc o)) a (f o)).journal = jc o :: db.journal := rfl
      rw [revertLoop_cons 0 hj1]
      have hs1 : getStateObject { (setObj (appendJ db (jc o)) a (f o)) with
          journal := db.journal } a = some (f o) := by
        rw [getStateObject_journal, getStateObject_setObj_self _ _ hdelf]
      obtain ⟨o2, he, ho2d, ho2⟩ := hgood _ o hdo hs1
      rw [he]
      show SEquiv (setObj _ a o2) db
      refine ⟨rfl, ?_, rfl, rfl, rfl, rfl, fun _ => rfl, rfl, fun _ => rfl, rfl, rfl, rfl⟩
      intro b
      by_cases hb : b = a
      · subst hb
        rw [getStateObject_setObj_self _ _ ho2d, hget]
        exact ho2
      · have hab : a ≠ b := fun he' => hb he'.symm
        rw [getStateObject_setObj_ne _ _ _ _ hab, getStateObject_journal,
          getStateObject_setObj_ne _ _ _ _ hab, getStateObject_appendJ]
        exact objEquiv_refl _

theorem addBalance_good (db : StateDB) (a : Addr) (amt : Int) (hwf : WF db) :
    GoodStep db (addBalance db a amt) := by
  refine mutateObject_good db a _ _ hwf (fun _ => rfl) ?_
  intro s o hdo hget
  refine ⟨o, ?_, hdo, objEquiv_refl _⟩
  simp only [applyRevert]
  rw [hget]

theorem subBalance_good (db : StateDB) (a : Addr) (amt : Int) (hwf : WF db) :
    GoodStep db (subBalance db a amt) := by
  refine mutateObject_good db a _ _ hwf (fun _ => rfl) ?_
  intro s o hdo hget
  refine ⟨o, ?_, hdo, objEquiv_refl _⟩
  simp only [applyRevert]
  rw [hget]

theorem setBalance_good (db : StateDB) (a : Addr) (v : Int) (hwf : WF db) :
    GoodStep db (setBalance db a v) := by
  refine mutateObject_good db a _ _ hwf (fun _ => rfl) ?_
  intro s o hdo hget
  refine ⟨o, ?_, hdo, objEquiv_refl _⟩
  simp only [applyRevert]
  rw [hget]

theorem setNonce_good (db : StateDB) (a : Addr) (n : Nat) (hwf : WF db) :
    GoodStep db (setNonce db a n) := by
  refine mutateObject_good db a _ _ hwf (fun _ => rfl) ?_
  intro s o hdo hget
  refine ⟨o, ?_, hdo, objEquiv_refl _⟩
  simp only [applyRevert]
  rw [hget]

theorem setCode_good (db : StateDB) (a : Addr) (c : Bytes) (hwf : WF db) :
    GoodStep db (setCode db a c) := by
  refine mutateObject_good db a _ _ hwf (fun _ => rfl) ?_
  intro s o hdo hget
  refine ⟨o, ?_, hdo, objEquiv_refl _⟩
  simp only [applyRevert]
  rw [hget]

theorem setState_good (db : StateDB) (a : Addr) (k v : Hash) (hwf : WF db) :
    GoodStep db (setState db a k v) := by
  refine mutateObject_good db a _ _ hwf (fun _ => rfl) ?_
  intro s o hdo hget
  refine ⟨SObj.mk o.nonce o.balance o.code o.committed
    (insertA k (getStateVal o k) (insertA k v o.dirtyStorage)) o.suicided o.deleted,
    ?_, hdo, ?_⟩
  · simp only [applyRevert]
    rw [hget]
  · refine ⟨rfl, rfl, rfl, rfl, fun k' => ?_⟩
    show gsv (insertA k (getStateVal o k) (insertA k v o.dirtyStorage)) o.committed k' =
      gsv o.dirtyStorage o.committed k'
    rw [gsv_insert]
    by_cases hk : k' = k
    · simp only [hk, if_true]
      rfl
    · simp only [hk, if_false]
      rw [gsv_insert]
      simp [hk]

theorem suicide_good (db : StateDB) (a : Addr) (hwf : WF db) :
    GoodStep db (suicide db a) := by
  rcases hget : getStateObject db a with _ | o
  · have h : suicide db a = db := by
      unfold suicide
      rw [hget]
    rw [h]
    refine ⟨stepInv_refl db, hwf, ?_⟩
    rw [Nat.sub_self]
    exact sEquiv_refl db
  · have h : suicide db a =
        mutateObject db a (fun o => .suicideChange a o.suicided o.balance)
          (fun o => { o with suicided := true, balance := 0 }) := by
      unfold suicide mutateObject getOrNewStateObject
      rw [hget]
    rw [h]
    refine mutateObject_good db a _ _ hwf (fun _ => rfl) ?_
    intro s o' hdo hget'
    refine ⟨o', ?_, hdo, objEquiv_refl _⟩
    simp only [applyRevert]
    rw [hget']

theorem createAccount_good (db : StateDB) (a : Addr) (hwf : WF db) :
    GoodStep db (createAccount db a) := by
  rcases hget : getStateObject db a with _ | p
  · -- no previous object: createObjectChange only
    have hmu : createAccount db a = setObj (appendJ db (.createObjectChange a)) a freshObj := by
      simp only [createAccount, createObject, hget]
    rw [hmu]
    refine ⟨⟨rfl, rfl, rfl, rfl, rfl, rfl, ?_⟩, ⟨?_, hwf.2⟩, ?_⟩
    · show db.journal.length ≤ (Change.createObjectChange a :: db.journal).length
      simp only [List.length_cons]
      omega
    · intro q hq hqd
      rcases mem_of_mem_insertA hq with h1 | h1
      · rw [h1] at hqd
        cases hqd
      · exact hwf.1 q h1 hqd
    · have hdiff : (setObj (appendJ db (.createObjectChange a)) a freshObj).journal.length -
          db.journal.length = 1 := by
        show (Change.createObjectChange a :: db.journal).length - db.journal.length = 1
        simp only [List.length_cons]
        omega
      rw [hdiff]
      have hj1 : (setObj (appendJ db (.createObjectChange a)) a freshObj).journal =
          Change.createObjectChange a :: db.journal := rfl
      rw [revertLoop_cons 0 hj1]
      show SEquiv (applyRevert (.createObjectChange a) _) db
      simp only [applyRevert]
      refine ⟨rfl, ?_, rfl, rfl, rfl, rfl, fun _ => rfl, rfl, fun _ => rfl, rfl, rfl, rfl⟩
      intro b
      show ObjEquiv (gso (eraseA a (insertA a freshObj db.stateObjects)) db.trie b)
        (gso db.stateObjects db.trie b)
      have hget' : gso db.stateObjects db.trie a = none := hget
      by_cases hb : b = a
      · subst hb
        rw [gso_erase_self, hget']
        rw [trie_none_of_getStateObject_none hwf hget]
        trivial
      · have hab : a ≠ b := fun he' => hb he'.symm
        rw [gso_erase_ne _ _ _ _ hab, gso_insert_ne _ _ _ _ _ hab]
        exact objEquiv_refl _
  · -- previous object: resetObjectChange carries it; balance survives
    have hmu : createAccount db a =
        setObj (setObj (appendJ db (.resetObjectChange a p)) a freshObj) a
          { freshObj with balance := p.balance } := by
      simp only [createAccount, createObject, hget]
    rw [hmu]
    have hdp : p.deleted = false := getStateObject_deleted_false hget
    refine ⟨⟨rfl, rfl, rfl, rfl, rfl, rfl, ?_⟩, ⟨?_, hwf.2⟩, ?_⟩
    · show db.journal.length ≤ (Change.resetObjectChange a p :: db.journal).length
      simp only [List.length_cons]
      omega
    · intro q hq hqd
      rcases mem_of_mem_insertA hq with h1 | h1
      · rw [h1] at hqd
        cases hqd
      · rcases mem_of_mem_insertA h1 with h2 | h2
        · rw [h2] at hqd
          cases hqd
        · exact hwf.1 q h2 hqd
    · have hdiff : (setObj (setObj (appendJ db (.resetObjectChange a p)) a freshObj) a
          { freshObj with balance := p.balance }).journal.length - db.journal.length = 1 := by
        show (Change.resetObjectChange a p :: db.journal).length - db.journal.length = 1
        simp only [List.length_cons]
        omega
      rw [hdiff]
      have hj1 : (setObj (setObj (appendJ db (.resetObjectChange a p)) a freshObj) a
          { freshObj with balance := p.balance }).journal =
          Change.resetObjectChange a p :: db.journal := rfl
      rw [revertLoop_cons 0 hj1]
      show SEquiv (applyRevert (.resetObjectChange a p) _) db
      simp only [applyRevert]
      refine ⟨rfl, ?_, rfl, rfl, rfl, rfl, fun _ => rfl, rfl, fun _ => rfl, rfl, rfl, rfl⟩
      intro b
      show ObjEquiv (gso (insertA a p (insertA a { freshObj with balance := p.balance }
        (insertA a freshObj db.stateObjects))) db.trie b) (gso db.stateObjects db.trie b)
      have hget' : gso db.stateObjects db.trie a = some p := hget
      by_cases hb : b = a
      · subst hb
        rw [gso_insert_self _ _ _ _ hdp, hget']
        exact objEquiv_refl _
      · have hab : a ≠ b := fun he' => hb he'.symm
        rw [gso_insert_ne _ _ _ _ _ hab, gso_insert_ne _ _ _ _ _ hab,
          gso_insert_ne _ _ _ _ _ hab]
        exact objEquiv_refl _

theorem addLog_good (db : StateDB) (payload : Bytes) (hwf : WF db) :
    GoodStep db (addLog db payload) := by
  refine ⟨⟨rfl, rfl, rfl, rfl, rfl, rfl, ?_⟩, hwf, ?_⟩
  · show db.journal.length ≤ (Change.addLogChange db.thash :: db.journal).length
    simp only [List.length_cons]
    omega
  · have hdiff : (addLog db payload).journal.length - db.journal.length = 1 := by
      show (Change.addLogChange db.thash :: db.journal).length - db.journal.length = 1
      simp only [List.length_cons]
      omega
    rw [hdiff]
    have hj1 : (addLog db payload).journal = Change.addLogChange db.thash :: db.journal := rfl
    rw [revertLoop_cons 0 hj1]
    show SEquiv (applyRevert (.addLogChange db.thash) _) db
    simp only [applyRevert]
    refine ⟨rfl, fun _ => objEquiv_refl _, rfl, rfl, rfl, rfl, ?_, ?_, fun _ => rfl,
      rfl, rfl, rfl⟩
    · intro h'
      show (lookupA (insertA db.thash ((lookupA (insertA db.thash (obsLogs db db.thash ++
          [SLog.mk db.thash db.bhash db.txIndex db.logSize payload]) db.logs)
          db.thash).getD []).dropLast (insertA db.thash (obsLogs db db.thash ++
          [SLog.mk db.thash db.bhash db.txIndex db.logSize payload]) db.logs)) h').getD [] =
        obsLogs db h'
      rw [lookupA_insert_self]
      simp only [Option.getD_some]
      rw [List.dropLast_concat]
      by_cases hb : h' = db.thash
      · subst hb
        rw [lookupA_insert_self]
        rfl
      · rw [lookupA_insert_ne _ _ _ _ (fun he => hb he.symm),
          lookupA_insert_ne _ _ _ _ (fun he => hb he.symm)]
        rfl
    · show db.logSize + 1 - 1 = db.logSize
      omega

theorem addPreimage_good (db : StateDB) (h : Hash) (p : Bytes) (hwf : WF db) :
    GoodStep db (addPreimage db h p) := by
  rcases hp : lookupA db.preimages h with _ | p0
  · -- absent hash: journaled write, reversed by erasing
    have hmu : addPreimage db h p = { appendJ db (.addPreimageChange h) with
        preimages := insertA h p (appendJ db (.addPreimageChange h)).preimages } := by
      unfold addPreimage
      rw [hp]
    rw [hmu]
    refine ⟨⟨rfl, rfl, rfl, rfl, rfl, rfl, ?_⟩, hwf, ?_⟩
    · show db.journal.length ≤ (Change.addPreimageChange h :: db.journal).length
      simp only [List.length_cons]
      omega
    · have hdiff : ({ appendJ db (.addPreimageChange h) with
          preimages := insertA h p (appendJ db (.addPreimageChange h)).preimages
            } : StateDB).journal.length - db.journal.length = 1 := by
        show (Change.addPreimageChange h :: db.journal).length - db.journal.length = 1
        simp only [List.length_cons]
        omega
      rw [hdiff]
      have hj1 : ({ appendJ db (.addPreimageChange h) with
          preimages := insertA h p (appendJ db (.addPreimageChange h)).preimages
            } : StateDB).journal = Change.addPreimageChange h :: db.journal := rfl
      rw [revertLoop_cons 0 hj1]
      show SEquiv (applyRevert (.addPreimageChange h) _) db
      simp only [applyRevert]
      refine ⟨rfl, fun _ => objEquiv_refl _, rfl, rfl, rfl, rfl, fun _ => rfl, rfl, ?_,
        rfl, rfl, rfl⟩
      intro h'
      show lookupA (eraseA h (insertA h p db.preimages)) h' = lookupA db.preimages h'
      by_cases hb : h' = h
      · subst hb
        rw [lookupA_erase_self, hp]
      · rw [lookupA_erase_ne _ _ _ (fun he => hb he.symm),
          lookupA_insert_ne _ _ _ _ (fun he => hb he.symm)]
  · -- present hash: bit-identical no-op
    have hmu : addPreimage db h p = db := by
      unfold addPreimage
      rw [hp]
    rw [hmu]
    refine ⟨stepInv_refl db, hwf, ?_⟩
    rw [Nat.sub_self]
    exact sEquiv_refl db

theorem addRefund_good (db : StateDB) (g : Nat) (hwf : WF db) :
    GoodStep db (addRefund db g) := by
  refine ⟨⟨rfl, rfl, rfl, rfl, rfl, rfl, ?_⟩, hwf, ?_⟩
  · show db.journal.length ≤ (Change.refundChange db.refund :: db.journal).length
    simp only [List.length_cons]
    omega
  · have hdiff : (addRefund db g).journal.length - db.journal.length = 1 := by
      show (Change.refundChange db.refund :: db.journal).length - db.journal.length = 1
      simp only [List.length_cons]
      omega
    rw [hdiff]
    have hj1 : (addRefund db g).journal = Change.refundChange db.refund :: db.journal := rfl
    rw [revertLoop_cons 0 hj1]
    show SEquiv (applyRevert (.refundChange db.refund) _) db
    simp only [applyRevert]
    exact ⟨rfl, fun _ => objEquiv_refl _, rfl, rfl, rfl, rfl, fun _ => rfl, rfl,
      fun _ => rfl, rfl, rfl, rfl⟩

theorem subRefund_good (db : StateDB) (g : Nat) (dbA : StateDB) (hwf : WF db)
    (h : subRefund db g = some dbA) : GoodStep db dbA := by
  simp only [subRefund] at h
  split at h
  · cases h
  · injection h with h
    subst h
    refine ⟨⟨rfl, rfl, rfl, rfl, rfl, rfl, ?_⟩, hwf, ?_⟩
    · show db.journal.length ≤ (Change.refundChange db.refund :: db.journal).length
      simp only [List.length_cons]
      omega
    · have hdiff : ({ appendJ db (.refundChange db.refund) with
          refund := (appendJ db (.refundChange db.refund)).refund - g
            } : StateDB).journal.length - db.journal.length = 1 := by
        show (Change.refundChange db.refund :: db.journal).length - db.journal.length = 1
        simp only [List.length_cons]
        omega
      rw [show (({ appendJ db (.refundChange db.refund) with
          refund := (appendJ db (.refundChange db.refund)).refund - g
            } : StateDB).journal.length - db.journal.length) = 1 from hdiff]
      have hj1 : ({ appendJ db (.refundChange db.refund) with
          refund := (appendJ db (.refundChange db.refund)).refund - g
            } : StateDB).journal = Change.refundChange db.refund :: db.journal := rfl
      rw [revertLoop_cons 0 hj1]
      show SEquiv (applyRevert (.refundChange db.refund) _) db
      simp only [applyRevert]
      exact ⟨rfl, fun _ => objEquiv_refl _, rfl, rfl, rfl, rfl, fun _ => rfl, rfl,
        fun _ => rfl, rfl, rfl, rfl⟩

theorem stepOp_good (op : Op) (db dbA : StateDB) (hwf : WF db)
    (h : stepOp db op = some dbA) : GoodStep db dbA := by
  cases op with
  | addBalance a amt =>
    injection h with h
    subst h
    exact addBalance_good db a amt hwf
  | subBalance a amt =>
    injection h with h
    subst h
    exact subBalance_good db a amt hwf
  | setBalance a v =>
    injection h with h
    subst h
    exact setBalance_good db a v hwf
  | setNonce a n =>
    injection h with h
    subst h
    exact setNonce_good db a n hwf
  | setCode a c =>
    injection h with h
    subst h
    exact setCode_good db a c hwf
  | setState a k v =>
    injection h with h
    subst h
    exact setState_good db a k v hwf
  | addRefund g =>
    injection h with h
    subst h
    exact addRefund_good db g hwf
  | subRefund g => exact subRefund_good db g dbA hwf h
  | addLog payload =>
    injection h with h
    subst h
    exact addLog_good db payload hwf
  | addPreimage hh p =>
    injection h with h
    subst h
    exact addPreimage_good db hh p hwf
  | suicide a =>
    injection h with h
    subst h
    exact suicide_good db a hwf
  | createAccount a =>
    injection h with h
    subst h
    exact createAccount_good db a hwf

/-- Running any sequence of mutations preserves the frame and
well-formedness, and popping the journal entries it appended restores
the observable state. -/
theorem run_good : ∀ (ops : List Op) (db db' : StateDB), WF db → run ops db = some db' →
    GoodStep db db' := by
  intro ops
  induction ops with
  | nil =>
    intro db db' hwf h
    injection h with h
    subst h
    refine ⟨stepInv_refl db, hwf, ?_⟩
    rw [Nat.sub_self]
    exact sEquiv_refl db
  | cons op rest ih =>
    intro db db' hwf h
    unfold run at h
    rcases hstep : stepOp db op with _ | dbA
    · rw [hstep] at h
      cases h
    · rw [hstep] at h
      obtain ⟨hinv1, hwf1, heq1⟩ := stepOp_good op db dbA hwf hstep
      obtain ⟨hinv2, hwf2, heq2⟩ := ih dbA db' hwf1 h
      refine ⟨stepInv_trans hinv1 hinv2, hwf2, ?_⟩
      have hl1 := hinv1.jlen
      have hl2 := hinv2.jlen
      have harith : db'.journal.length - db.journal.length =
          (db'.journal.length - dbA.journal.length) +
            (dbA.journal.length - db.journal.length) := by omega
      rw [harith, revertLoop_add]
      exact sEquiv_trans (revertLoop_congr _ heq2) heq1

theorem snapshot_wf {db : StateDB} (hwf : WF db) : WF (snapshot db).2 := by
  constructor
  · exact hwf.1
  · intro r hr
    have hr' : r ∈ db.validRevisions ++ [(db.nextRevisionId, db.journal.length)] := hr
    show r.1 < db.nextRevisionId + 1
    rcases List.mem_append.mp hr' with h1 | h1
    · exact Nat.lt_succ_of_lt (hwf.2 r h1)
    · rw [List.mem_singleton.mp h1]
      exact Nat.lt_succ_self _

/-- `sort.Search` over the id-ascending `validRevisions` finds the
appended entry when every earlier id is smaller. -/
theorem findIdx_append_last (l : List (Nat × Nat)) (id len : Nat)
    (hall : ∀ r ∈ l, r.1 < id) :
    (l ++ [(id, len)]).findIdx? (fun r => id ≤ r.1) = some l.length := by
  induction l with
  | nil => simp [List.findIdx?]
  | cons x xs ih =>
    have hx : ¬ (id ≤ x.1) := Nat.not_le.mpr (hall x (List.mem_cons_self _ _))
    rw [List.cons_append, List.findIdx?_cons]
    simp only [hx, decide_False, Bool.false_eq_true, if_false]
    rw [List.findIdx?_succ, ih (fun r hr => hall r (List.mem_cons_of_mem _ hr))]
    rfl

theorem getElem_append_last (l : List (Nat × Nat)) (x : Nat × Nat) :
    (l ++ [x])[l.length]? = some x := by
  induction l with
  | nil => rfl
  | cons y ys ih =>
    rw [List.cons_append, List.length_cons]
    simp only [List.getElem?_cons_succ]
    exact ih

theorem obsBalance_congr {s t : StateDB} (h : SEquiv s t) (a : Addr) :
    obsBalance s a = obsBalance t a := by
  have ho := h.objs a
  unfold obsBalance
  rcases hx : getStateObject s a with _ | o1 <;> rcases hy : getStateObject t a with _ | o2 <;>
    rw [hx, hy] at ho
  all_goals first
    | rfl
    | exact False.elim ho
    | exact ho.1

theorem obsNonce_congr {s t : StateDB} (h : SEquiv s t) (a : Addr) :
    obsNonce s a = obsNonce t a := by
  have ho := h.objs a
  unfold obsNonce
  rcases hx : getStateObject s a with _ | o1 <;> rcases hy : getStateObject t a with _ | o2 <;>
    rw [hx, hy] at ho
  all_goals first
    | rfl
    | exact False.elim ho
    | exact ho.2.1

theorem obsCode_congr {s t : StateDB} (h : SEquiv s t) (a : Addr) :
    obsCode s a = obsCode t a := by
  have ho := h.objs a
  unfold obsCode
  rcases hx : getStateObject s a with _ | o1 <;> rcases hy : getStateObject t a with _ | o2 <;>
    rw [hx, hy] at ho
  all_goals first
    | rfl
    | exact False.elim ho
    | exact ho.2.2.1

theorem obsState_congr {s t : StateDB} (h : SEquiv s t) (a : Addr) (k : Hash) :
    obsState s a k = obsState t a k := by
  have ho := h.objs a
  unfold obsState
  rcases hx : getStateObject s a with _ | o1 <;> rcases hy : getStateObject t a with _ | o2 <;>
    rw [hx, hy] at ho
  all_goals first
    | rfl
    | exact False.elim ho
    | exact ho.2.2.2.2 k

/-- Claim C1: for every well-formed StateDB and every sequence of
mutations, taking a snapshot, running the mutations (none of which
panics), and reverting to the snapshot id succeeds and restores every
observable — balances, nonces, code, storage slots, the refund counter,
the logs per transaction hash, and the preimages — to its value at the
moment of the Snapshot call. -/
theorem claim_C1_snapshot_revert (db : StateDB) (ops : List Op) (db' : StateDB)
    (hwf : WF db) (h : run ops (snapshot db).2 = some db') :
    ∃ dbR, revertToSnapshot db' (snapshot db).1 = some dbR ∧
      (∀ a, obsBalance dbR a = obsBalance db a) ∧
      (∀ a, obsNonce dbR a = obsNonce db a) ∧
      (∀ a, obsCode dbR a = obsCode db a) ∧
      (∀ a k, obsState dbR a k = obsState db a k) ∧
      dbR.refund = db.refund ∧
      (∀ hh, obsLogs dbR hh = obsLogs db hh) ∧
      (∀ hh, obsPreimage dbR hh = obsPreimage db hh) := by
  obtain ⟨hinv, hwf', heq⟩ := run_good ops (snapshot db).2 db' (snapshot_wf hwf) h
  have hvr : db'.validRevisions =
      db.validRevisions ++ [(db.nextRevisionId, db.journal.length)] :=
    hinv.validRevisions.trans rfl
  have hrts : revertToSnapshot db' db.nextRevisionId =
      some { journalRevert db' db.journal.length with
        validRevisions := db.validRevisions } := by
    unfold revertToSnapshot
    rw [hvr, findIdx_append_last _ _ _ hwf.2]
    simp only []
    rw [getElem_append_last]
    simp only []
    rw [if_pos trivial, List.take_left]
  exact ⟨_, hrts, fun a => obsBalance_congr heq a, fun a => obsNonce_congr heq a,
    fun a => obsCode_congr heq a, fun a k => obsState_congr heq a k, heq.refund,
    fun hh => heq.logs hh, fun hh => heq.preimages hh⟩

/-- The empty StateDB. -/
def db0 : StateDB := ⟨[], [], 0, 0, 0, 0, [], 0, [], [], [], 0⟩

/-- The state after snapshotting the empty StateDB and crediting one
account. -/
def dbW : StateDB := (run [Op.addBalance 1 5] (snapshot db0).2).getD db0

theorem claim_C1_witness :
    WF db0 ∧ run [Op.addBalance 1 5] (snapshot db0).2 = some dbW ∧
    ∃ dbR, revertToSnapshot dbW (snapshot db0).1 = some dbR ∧
      (∀ a, obsBalance dbR a = obsBalance db0 a) ∧
      (∀ a, obsNonce dbR a = obsNonce db0 a) ∧
      (∀ a, obsCode dbR a = obsCode db0 a) ∧
      (∀ a k, obsState dbR a k = obsState db0 a k) ∧
      dbR.refund = db0.refund ∧
      (∀ hh, obsLogs dbR hh = obsLogs db0 hh) ∧
      (∀ hh, obsPreimage dbR hh = obsPreimage db0 hh) :=
  ⟨⟨by decide, by decide⟩, by decide,
    claim_C1_snapshot_revert db0 [Op.addBalance 1 5] dbW ⟨by decide, by decide⟩ (by decide)⟩

end State
